import Mathlib

/-!
Verification of the cultist-circle selector (`compute_cultist_selection` in
`src/cultist.py`).  The Python function is shallowly embedded: dictionaries
become structures with `Option` fields (a value that is absent or not an
integer is `none`), Python ints become `Int`, bucket indices become `Nat`,
exceptions become an `Except` error type, and the random shuffle becomes an
explicit function parameter that is applied only when `randomize` is true.
-/

namespace Cultist

/-- Quantization step (`STEP = 500` in `src/cultist.py`). -/
def STEP : Nat := 500

/-- Maximum overshoot allowance (`MAX_OVER = 50_000`). -/
def MAX_OVER : Nat := 50000

/-- The infinity sentinel (`INF = 10**18`). -/
def INF : Int := 10 ^ 18

/-- A raw catalog entry (one element of `items_data["items"]`).  Fields that
are missing or not of the expected type in the Python dict are `none`. -/
structure RawItem where
  name : Option String := none
  shortName : Option String := none
  basePrice : Option Int := none
  pvePrice : Option Int := none
  traderBuyPrice : Option Int := none
  traderBuyVendor : Option String := none
  traderMinLevel : Option Int := none
  traderBuyLimit : Option Int := none
  link : Option String := none
deriving Repr, DecidableEq

/-- A prepared candidate (the dicts appended to `candidates`).
PvE candidates have `vendor`, `vendorLabel` and `cap` set to `none`. -/
structure Candidate where
  name : String
  value : Int
  cost : Int
  link : Option String := none
  vendor : Option String := none
  vendorLabel : Option String := none
  cap : Option Int := none
deriving Repr, DecidableEq

/-- Default candidate, used for out-of-range list access (never reached on
the paths the theorems talk about). -/
def dCand : Candidate := { name := "", value := 0, cost := 0 }

/-- One expanded 0/1 unit of a PvP candidate. -/
structure UnitItem where
  idx : Nat
  vb : Nat
  cost : Int
deriving Repr, DecidableEq

/-- Default unit, used for out-of-range list access. -/
def dUnit : UnitItem := { idx := 0, vb := 0, cost := 0 }

/-- The three failure conditions raised by the selector. -/
inductive SelErr where
  | missingCatalog
  | noValidCandidates
  | noFeasibleSelection
deriving Repr, DecidableEq

/-- The successful result (`{"total_value": ..., "total_cost": ..., "sel_lines": ...}`). -/
structure SelectionResult where
  total_value : Int
  total_cost : Int
  sel_lines : List String
deriving Repr, DecidableEq

/-- Python `s or d` for an optional string (empty strings are falsy). -/
def pyStrOr (s : Option String) (d : String) : String :=
  match s with
  | some t => if t = "" then d else t
  | none => d

/-- `mode or "pvp"` (both a missing mode and the empty string default to `"pvp"`). -/
def modeOf : Option String → String
  | none => "pvp"
  | some s => if s = "" then "pvp" else s

/-- `it.get("name") or it.get("shortName") or "Unknown"`. -/
def nameOf (it : RawItem) : String :=
  pyStrOr it.name (pyStrOr it.shortName "Unknown")

/-- `min_level if isinstance(min_level, int) else '?'` rendered as a string. -/
def levelStr (minLevel : Option Int) : String :=
  match minLevel with
  | some l => toString l
  | none => "?"

/-- `f"{vendor} L{...}" if vendor else "unknown L?"`. -/
def vendorLabelOf (vendor : Option String) (minLevel : Option Int) : String :=
  match vendor with
  | some v => if v = "" then "unknown L?" else v ++ " L" ++ levelStr minLevel
  | none => "unknown L?"

/-- Candidate preparation for the PvE branch of the loop over `items_data["items"]`. -/
def pveCandidate (it : RawItem) : Option Candidate :=
  match it.basePrice with
  | none => none
  | some v =>
    if v ≤ 0 then none
    else
      match it.pvePrice with
      | none => none
      | some c =>
        if c ≤ 0 then none
        else some { name := nameOf it, value := v, cost := c, link := it.link }

/-- Candidate preparation for the PvP branch (trader buy offers). -/
def pvpCandidate (maxItems : Int) (it : RawItem) : Option Candidate :=
  match it.basePrice with
  | none => none
  | some v =>
    if v ≤ 0 then none
    else
      match it.traderBuyPrice with
      | none => none
      | some c =>
        if c ≤ 0 then none
        else
          let cap : Int :=
            match it.traderBuyLimit with
            | some b => if 0 < b then min b maxItems else maxItems
            | none => maxItems
          some { name := nameOf it, value := v, cost := c, link := it.link,
                 vendor := it.traderBuyVendor,
                 vendorLabel := some (vendorLabelOf it.traderBuyVendor it.traderMinLevel),
                 cap := some cap }

/-- The candidate-building loop. -/
def buildCandidates (sm : String) (maxItems : Int) (items : List RawItem) : List Candidate :=
  items.filterMap (fun it => if sm = "pve" then pveCandidate it else pvpCandidate maxItems it)

/-- `K = max(1, max_items)`. -/
def Kof (maxItems : Int) : Nat := (max 1 maxItems).toNat

/-- `tb = math.ceil(threshold / STEP)`. -/
def tbOf (threshold : Nat) : Nat := (threshold + (STEP - 1)) / STEP

/-- `vb_max = math.ceil((threshold + MAX_OVER) / STEP)`. -/
def vbMaxOf (threshold : Nat) : Nat := (threshold + MAX_OVER + (STEP - 1)) / STEP

/-- `c["vb"] = min(math.ceil(c["value"] / STEP), vb_max)` (values are positive). -/
def vbOf (vbMax : Nat) (v : Int) : Nat := min ((v.toNat + (STEP - 1)) / STEP) vbMax

/-- `cap = max(1, min(K, c.get("cap", K)))` for unit expansion. -/
def capClamp (K : Nat) (c : Candidate) : Nat :=
  (max 1 (min (K : Int) (c.cap.getD (K : Int)))).toNat

/-- Unit expansion (`units.append(...)` loop), carrying the running candidate index. -/
def mkUnitsFrom (K vbMax : Nat) : Nat → List Candidate → List UnitItem
  | _, [] => []
  | i, c :: rest =>
    List.replicate (capClamp K c) ⟨i, vbOf vbMax c.value, c.cost⟩ ++
      mkUnitsFrom K vbMax (i + 1) rest

/-- `units` list for the PvP 0/1 DP. -/
def mkUnits (K vbMax : Nat) (cands : List Candidate) : List UnitItem :=
  mkUnitsFrom K vbMax 0 cands

/-- One candidate considered by the inner `for idx, it in enumerate(candidates)`
loop of the PvE DP; the accumulator is `(best_cost, (best_prev_v, best_prev_i))`. -/
def pveStep1 (prevRow : Nat → Int) (vbMax vb : Nat) (i : Nat) (it : Candidate)
    (best : Int × Option (Nat × Nat)) : Int × Option (Nat × Nat) :=
  if vbOf vbMax it.value ≤ vb then
    if prevRow (vb - vbOf vbMax it.value) = INF then best
    else if prevRow (vb - vbOf vbMax it.value) + it.cost < best.1 then
      (prevRow (vb - vbOf vbMax it.value) + it.cost, some (vb - vbOf vbMax it.value, i))
    else best
  else best

/-- The whole inner candidate loop, starting at candidate index `i`. -/
def pveBestFrom (prevRow : Nat → Int) (vbMax vb : Nat) :
    Nat → List Candidate → Int × Option (Nat × Nat) → Int × Option (Nat × Nat)
  | _, [], best => best
  | i, it :: rest, best =>
    pveBestFrom prevRow vbMax vb (i + 1) rest (pveStep1 prevRow vbMax vb i it best)

/-- The PvE DP table together with its back pointers: row `ccount` is computed
cell by cell from the completed row `ccount - 1`; a cell holds its cost and,
when it was improved, `(prevV, prevI)`. -/
def pveDP (vbMax : Nat) (cands : List Candidate) : Nat → Nat → Int × Option (Nat × Nat)
  | 0, vb => (if vb = 0 then (0 : Int) else INF, none)
  | c + 1, vb =>
    pveBestFrom (fun pv => (pveDP vbMax cands c pv).1) vbMax vb 0 cands (INF, none)

/-- The update performed for one unit at one `(ccount, vb)` cell of the PvP DP.
The descending `ccount`/`vb` iteration of the source reads only cells that this
unit's pass has not yet written, so one pass is a function of the old table. -/
def pvpStep (K vbMax : Nat) (uidx : Nat) (u : UnitItem)
    (tab : Nat → Nat → Int × Option (Nat × Nat)) (c vb : Nat) : Int × Option (Nat × Nat) :=
  if 1 ≤ c ∧ c ≤ K ∧ u.vb ≤ vb ∧ vb ≤ vbMax then
    if (tab (c - 1) (vb - u.vb)).1 = INF then tab c vb
    else if (tab (c - 1) (vb - u.vb)).1 + u.cost < (tab c vb).1 then
      ((tab (c - 1) (vb - u.vb)).1 + u.cost, some (vb - u.vb, uidx))
    else tab c vb
  else tab c vb

/-- The outer `for u_idx, u in enumerate(units)` loop, starting at unit index `i`. -/
def pvpDPFrom (K vbMax : Nat) :
    Nat → List UnitItem → (Nat → Nat → Int × Option (Nat × Nat)) →
      Nat → Nat → Int × Option (Nat × Nat)
  | _, [], tab => tab
  | i, u :: rest, tab => pvpDPFrom K vbMax (i + 1) rest (fun c vb => pvpStep K vbMax i u tab c vb)

/-- `dp[0][0] = 0`, everything else infinite, no back pointers. -/
def dpInit : Nat → Nat → Int × Option (Nat × Nat) :=
  fun c vb => (if c = 0 ∧ vb = 0 then (0 : Int) else INF, none)

/-- The PvP DP table with back pointers (`prevV`, `prevU`). -/
def pvpDP (K vbMax : Nat) (units : List UnitItem) : Nat → Nat → Int × Option (Nat × Nat) :=
  pvpDPFrom K vbMax 0 units dpInit

/-- The `options` list: every finite cell `(cost, ccount, vb)` with
`ccount` in `1..K` and `vb` in `tb..vb_max`, in scan order. -/
def optionsOf (K tb vbMax : Nat) (dp : Nat → Nat → Int) : List (Int × Nat × Nat) :=
  (List.range' 1 K).flatMap fun c =>
    (List.range' tb (vbMax + 1 - tb)).filterMap fun vb =>
      if dp c vb < INF then some (dp c vb, c, vb) else none

/-- Strict lexicographic comparison on `(cost, count, vb)` triples. -/
def tripLtB (a b : Int × Nat × Nat) : Bool :=
  if a.1 < b.1 then true
  else if a.1 = b.1 then
    if a.2.1 < b.2.1 then true
    else if a.2.1 = b.2.1 then decide (a.2.2 < b.2.2)
    else false
  else false

/-- Lexicographic order on `(cost, count, vb)` triples (the sort key of the source). -/
def tripLe (a b : Int × Nat × Nat) : Prop :=
  a.1 < b.1 ∨ (a.1 = b.1 ∧ (a.2.1 < b.2.1 ∨ (a.2.1 = b.2.1 ∧ a.2.2 ≤ b.2.2)))

instance (a b : Int × Nat × Nat) : Decidable (tripLe a b) := by
  unfold tripLe; infer_instance

/-- `options.sort(key=lambda t: (t[0], t[1], t[2]))` followed by `options[0]`:
the first element of the stably sorted list is the first lexicographic minimum. -/
def pickBest : List (Int × Nat × Nat) → Option (Int × Nat × Nat)
  | [] => none
  | t :: rest => some (rest.foldl (fun b u => if tripLtB u b then u else b) t)

/-- The back-pointer walk (`while ccount > 0 and vb >= 0`), collecting the
stored index at each visited cell in visit order; a missing pointer stops
the walk early. -/
def walkTab (tab : Nat → Nat → Int × Option (Nat × Nat)) : Nat → Nat → List Nat
  | 0, _ => []
  | c + 1, vb =>
    match (tab (c + 1) vb).2 with
    | none => []
    | some (pv, j) => j :: walkTab tab c pv

/-- `counts[idx] = counts.get(idx, 0) + 1` on an association list that keeps
the Python dict's first-insertion key order. -/
def bumpCount : List (Nat × Nat) → Nat → List (Nat × Nat)
  | [], i => [(i, 1)]
  | (j, n) :: rest, i =>
    if j = i then (j, n + 1) :: rest else (j, n) :: bumpCount rest i

/-- The reconstruction counts, from the walked index list. -/
def countsOf (walk : List Nat) : List (Nat × Nat) :=
  walk.foldl bumpCount []

/-- The display key order `(-value, cost)` of
`sorted(counts.items(), key=lambda x: (-value, cost))`. -/
def dispLe (cands : List Candidate) (a b : Nat × Nat) : Bool :=
  let ca := cands.getD a.1 dCand
  let cb := cands.getD b.1 dCand
  if cb.value < ca.value then true
  else if ca.value = cb.value then decide (ca.cost ≤ cb.cost)
  else false

/-- Stable insertion into a sorted list: an element goes before the first
entry it does not come after, so ties keep their original order, matching
Python's stable sort. -/
def insertSorted (le : α → α → Bool) (a : α) : List α → List α
  | [] => [a]
  | b :: rest => if le a b then a :: b :: rest else b :: insertSorted le a rest

/-- Stable sort (same output as any stable sort, hence as Python's). -/
def sortBy (le : α → α → Bool) (l : List α) : List α :=
  l.foldr (insertSorted le) []

/-- Split a reversed digit list into groups of three (for the `:,` format). -/
def chunk3 : List Char → List (List Char)
  | [] => []
  | a :: b :: c :: rest => [a, b, c] :: chunk3 rest
  | l => [l]

/-- Thousands grouping of a natural number, like Python's `f"{n:,}"`. -/
def commaNat (n : Nat) : String :=
  String.mk (List.intercalate [','] (((chunk3 (toString n).toList.reverse).reverse).map List.reverse))

/-- Thousands grouping of an integer. -/
def commaFmt (i : Int) : String :=
  if i < 0 then "-" ++ commaNat i.natAbs else commaNat i.toNat

/-- `f"[{name}]({link})" if item.get("link") else name` (an empty link is falsy). -/
def nameDisp (c : Candidate) : String :=
  match c.link with
  | some lk => if lk = "" then c.name else "[" ++ c.name ++ "](" ++ lk ++ ")"
  | none => c.name

/-- One output line of `sel_lines` for the entry `(candidate index, count)`. -/
def lineFor (sm : String) (cands : List Candidate) (p : Nat × Nat) : String :=
  let it := cands.getD p.1 dCand
  let base := "x" ++ toString p.2 ++ " — " ++ nameDisp it ++ " | value " ++
    commaFmt it.value ++ "₽ | cost " ++ commaFmt it.cost ++ "₽"
  if sm = "pvp" then base ++ " | " ++ pyStrOr it.vendorLabel ""
  else base

/-- The aggregation loop: group, sort for display, accumulate `total_value`,
and return `best_cost` (not the recomputed sum) as `total_cost`. -/
def aggregate (sm : String) (cands : List Candidate) (bestCost : Int)
    (walkCands : List Nat) : SelectionResult :=
  let sorted := sortBy (dispLe cands) (countsOf walkCands)
  { total_value := (sorted.map (fun p => (cands.getD p.1 dCand).value * (p.2 : Int))).sum
    total_cost := bestCost
    sel_lines := sorted.map (lineFor sm cands) }

/-- The `options` list of a PvP run. -/
def pvpOptions (cands : List Candidate) (threshold : Nat) (maxItems : Int) :
    List (Int × Nat × Nat) :=
  optionsOf (Kof maxItems) (tbOf threshold) (vbMaxOf threshold)
    (fun c vb => (pvpDP (Kof maxItems) (vbMaxOf threshold)
      (mkUnits (Kof maxItems) (vbMaxOf threshold) cands) c vb).1)

/-- The `options` list of a PvE run. -/
def pveOptions (cands : List Candidate) (threshold : Nat) (maxItems : Int) :
    List (Int × Nat × Nat) :=
  optionsOf (Kof maxItems) (tbOf threshold) (vbMaxOf threshold)
    (fun c vb => (pveDP (vbMaxOf threshold) cands c vb).1)

/-- The whole pipeline from prepared candidates onward, PvP regime. -/
def solvePvp (sm : String) (cands : List Candidate) (threshold : Nat) (maxItems : Int) :
    Except SelErr SelectionResult :=
  match pickBest (pvpOptions cands threshold maxItems) with
  | none => .error .noFeasibleSelection
  | some best =>
    .ok (aggregate sm cands best.1
      ((walkTab (pvpDP (Kof maxItems) (vbMaxOf threshold)
          (mkUnits (Kof maxItems) (vbMaxOf threshold) cands)) best.2.1 best.2.2).map
        fun j => ((mkUnits (Kof maxItems) (vbMaxOf threshold) cands).getD j dUnit).idx))

/-- The whole pipeline from prepared candidates onward, PvE regime. -/
def solvePve (sm : String) (cands : List Candidate) (threshold : Nat) (maxItems : Int) :
    Except SelErr SelectionResult :=
  match pickBest (pveOptions cands threshold maxItems) with
  | none => .error .noFeasibleSelection
  | some best =>
    .ok (aggregate sm cands best.1
      (walkTab (pveDP (vbMaxOf threshold) cands) best.2.1 best.2.2))

/-- `compute_cultist_selection`.  `itemsData` is `none` when the input dict is
falsy or has no `"items"` key; `shuffle` stands for `random.shuffle` and is
applied only when `randomize` is true. -/
def compute_cultist_selection (itemsData : Option (List RawItem)) (threshold : Nat)
    (maxItems : Int) (mode : Option String) (randomize : Bool)
    (shuffle : List Candidate → List Candidate) : Except SelErr SelectionResult :=
  match itemsData with
  | none => .error .missingCatalog
  | some its =>
    let sm := modeOf mode
    let cands0 := buildCandidates sm maxItems its
    if cands0.isEmpty then .error .noValidCandidates
    else
      let cands := if randomize then shuffle cands0 else cands0
      if sm = "pve" then solvePve sm cands threshold maxItems
      else solvePvp sm cands threshold maxItems

/-! ### Basic facts about the lexicographic tie-break and `pickBest` -/

theorem tripLe_refl (a : Int × Nat × Nat) : tripLe a a := by
  unfold tripLe; right; exact ⟨rfl, Or.inr ⟨rfl, le_refl _⟩⟩

theorem tripLe_trans {a b c : Int × Nat × Nat} (h₁ : tripLe a b) (h₂ : tripLe b c) :
    tripLe a c := by
  unfold tripLe at *
  rcases h₁ with h₁ | ⟨e₁, h₁⟩ <;> rcases h₂ with h₂ | ⟨e₂, h₂⟩
  · exact Or.inl (lt_trans h₁ h₂)
  · exact Or.inl (e₂ ▸ h₁)
  · exact Or.inl (e₁ ▸ h₂)
  · refine Or.inr ⟨e₁.trans e₂, ?_⟩
    rcases h₁ with h₁ | ⟨f₁, h₁⟩ <;> rcases h₂ with h₂ | ⟨f₂, h₂⟩
    · exact Or.inl (lt_trans h₁ h₂)
    · exact Or.inl (f₂ ▸ h₁)
    · exact Or.inl (f₁ ▸ h₂)
    · exact Or.inr ⟨f₁.trans f₂, le_trans h₁ h₂⟩

theorem tripLtB_le {a b : Int × Nat × Nat} (h : tripLtB a b = true) : tripLe a b := by
  unfold tripLtB at h; unfold tripLe
  split at h
  · exact Or.inl (by assumption)
  · split at h
    · split at h
      · right; exact ⟨by assumption, Or.inl (by assumption)⟩
      · split at h
        · right
          refine ⟨by assumption, Or.inr ⟨by assumption, ?_⟩⟩
          exact le_of_lt (of_decide_eq_true h)
        · exact absurd h (by simp)
    · exact absurd h (by simp)

theorem tripLtB_false_le {a b : Int × Nat × Nat} (h : tripLtB a b = false) : tripLe b a := by
  unfold tripLtB at h; unfold tripLe
  split at h
  · exact absurd h (by simp)
  · rename_i h1
    split at h
    · rename_i h2
      split at h
      · exact absurd h (by simp)
      · rename_i h3
        split at h
        · rename_i h4
          have := of_decide_eq_false h
          right; exact ⟨h2.symm, Or.inr ⟨h4.symm, by omega⟩⟩
        · right; exact ⟨h2.symm, Or.inl (by omega)⟩
    · exact Or.inl (by rename_i h2; omega)

theorem pickAux_mem (t : Int × Nat × Nat) (rest : List (Int × Nat × Nat)) :
    rest.foldl (fun b u => if tripLtB u b then u else b) t ∈ t :: rest := by
  induction rest generalizing t with
  | nil => simp
  | cons u rest ih =>
    simp only [List.foldl_cons]
    by_cases h : tripLtB u t
    · rw [if_pos h]
      have := ih u
      simp only [List.mem_cons] at this ⊢
      tauto
    · rw [if_neg h]
      have := ih t
      simp only [List.mem_cons] at this ⊢
      tauto

theorem pickAux_le (t : Int × Nat × Nat) (rest : List (Int × Nat × Nat)) :
    ∀ u ∈ t :: rest, tripLe (rest.foldl (fun b u => if tripLtB u b then u else b) t) u := by
  induction rest generalizing t with
  | nil => intro u hu; simp at hu; subst hu; exact tripLe_refl _
  | cons v rest ih =>
    intro u hu
    simp only [List.mem_cons] at hu
    simp only [List.foldl_cons]
    by_cases h : tripLtB v t
    · rw [if_pos h]
      have hres : tripLe (rest.foldl _ v) v := ih v v (by simp)
      rcases hu with rfl | rfl | hu
      · exact tripLe_trans hres (tripLtB_le h)
      · exact hres
      · exact ih v u (by simp [hu])
    · rw [if_neg h]
      have hres : tripLe (rest.foldl _ t) t := ih t t (by simp)
      rcases hu with rfl | rfl | hu
      · exact hres
      · exact tripLe_trans hres (tripLtB_false_le (Bool.of_not_eq_true h))
      · exact ih t u (by simp [hu])

theorem pickBest_mem {l : List (Int × Nat × Nat)} {t : Int × Nat × Nat}
    (h : pickBest l = some t) : t ∈ l := by
  match l with
  | [] => simp [pickBest] at h
  | a :: rest =>
    simp only [pickBest, Option.some.injEq] at h
    subst h
    exact pickAux_mem a rest

theorem pickBest_le {l : List (Int × Nat × Nat)} {t : Int × Nat × Nat}
    (h : pickBest l = some t) : ∀ u ∈ l, tripLe t u := by
  match l with
  | [] => simp [pickBest] at h
  | a :: rest =>
    simp only [pickBest, Option.some.injEq] at h
    subst h
    exact pickAux_le a rest

theorem pickBest_eq_none {l : List (Int × Nat × Nat)} : pickBest l = none ↔ l = [] := by
  match l with
  | [] => simp [pickBest]
  | a :: rest => simp [pickBest]

/-- Membership in the `options` list is exactly "finite DP cell in the window". -/
theorem mem_optionsOf {K tb vbMax : Nat} {dp : Nat → Nat → Int} {m : Int} {c vb : Nat} :
    (m, c, vb) ∈ optionsOf K tb vbMax dp ↔
      1 ≤ c ∧ c ≤ K ∧ tb ≤ vb ∧ vb ≤ vbMax ∧ dp c vb < INF ∧ m = dp c vb := by
  unfold optionsOf
  simp only [List.mem_flatMap, List.mem_filterMap, List.mem_range'_1]
  constructor
  · rintro ⟨a, ⟨ha1, ha2⟩, v', ⟨hv1, hv2⟩, h⟩
    by_cases hc : dp a v' < INF
    · rw [if_pos hc] at h
      simp only [Option.some.injEq, Prod.mk.injEq] at h
      obtain ⟨h2, rfl, rfl⟩ := h
      exact ⟨ha1, by omega, hv1, by omega, hc, h2.symm⟩
    · rw [if_neg hc] at h; exact absurd h (by simp)
  · rintro ⟨h1, h2, h3, h4, h5, rfl⟩
    exact ⟨c, ⟨h1, by omega⟩, vb, ⟨h3, by omega⟩, by rw [if_pos h5]⟩

/-! ### Claim C5: the chosen triple is the lexicographic minimum of the options -/

/-- C5: for every solve, the `(cost, count, bucket)` triple chosen for
reconstruction is the lexicographic minimum, under ascending
`(cost, count, bucket)` order, of all finite DP cells with count in `1..K`
and bucket in `thresholdBucket..maxBucket`. -/
theorem C5_chosen_triple_is_lex_min (K tb vbMax : Nat) (dp : Nat → Nat → Int)
    (t : Int × Nat × Nat) (h : pickBest (optionsOf K tb vbMax dp) = some t) :
    t ∈ optionsOf K tb vbMax dp ∧
    (∀ u ∈ optionsOf K tb vbMax dp, tripLe t u) ∧
    (∀ m c vb, (m, c, vb) ∈ optionsOf K tb vbMax dp ↔
      1 ≤ c ∧ c ≤ K ∧ tb ≤ vb ∧ vb ≤ vbMax ∧ dp c vb < INF ∧ m = dp c vb) :=
  ⟨pickBest_mem h, pickBest_le h, fun _ _ _ => mem_optionsOf⟩

/-- Witness for C5 at a concrete two-cell table. -/
theorem C5_chosen_triple_is_lex_min_witness :
    (5, 1, 0) ∈ optionsOf 1 0 1 (fun _ _ => (5 : Int)) :=
  (C5_chosen_triple_is_lex_min 1 0 1 (fun _ _ => (5 : Int)) (5, 1, 0) (by decide)).1

/-! ### Claim C6: determinism without randomization -/

/-- C6: with `randomize = false` the selector is deterministic — the shuffle
function is never consulted, so two calls with identical catalog, threshold,
max items and mode give identical results. -/
theorem C6_deterministic (itemsData : Option (List RawItem)) (threshold : Nat)
    (maxItems : Int) (mode : Option String) (sh₁ sh₂ : List Candidate → List Candidate) :
    compute_cultist_selection itemsData threshold maxItems mode false sh₁ =
      compute_cultist_selection itemsData threshold maxItems mode false sh₂ := by
  cases itemsData <;> rfl

/-! ### Claim C10: every mode other than `"pve"` runs the bounded regime -/

/-- C10: for every mode other than the exact string `"pve"` — including the
empty string and a missing mode, which default to `"pvp"` — the selector
builds candidates from the trader-buy cost field and runs the bounded (PvP)
pipeline; the unbounded pipeline runs only for `"pve"`. -/
theorem C10_nonpve_runs_bounded (itemsData : Option (List RawItem)) (threshold : Nat)
    (maxItems : Int) (mode : Option String) (randomize : Bool)
    (shuffle : List Candidate → List Candidate) (h : mode ≠ some "pve") :
    compute_cultist_selection itemsData threshold maxItems mode randomize shuffle =
      (match itemsData with
       | none => .error .missingCatalog
       | some its =>
         let cands0 := its.filterMap (pvpCandidate maxItems)
         if cands0.isEmpty then .error .noValidCandidates
         else solvePvp (modeOf mode) (if randomize then shuffle cands0 else cands0)
                threshold maxItems) ∧
    modeOf none = "pvp" ∧ modeOf (some "") = "pvp" := by
  have hsm : modeOf mode ≠ "pve" := by
    cases mode with
    | none => simp [modeOf]
    | some s =>
      simp only [modeOf]
      by_cases hs : s = ""
      · simp [hs]
      · rw [if_neg hs]
        intro hc
        exact h (by rw [hc])
  refine ⟨?_, rfl, rfl⟩
  cases itemsData with
  | none => rfl
  | some its =>
    simp only [compute_cultist_selection, buildCandidates, if_neg hsm]

/-- Witness for C10 at a concrete input with mode `"arena"`. -/
theorem C10_nonpve_runs_bounded_witness :
    compute_cultist_selection none 0 1 (some "arena") false id =
      (.error .missingCatalog : Except SelErr SelectionResult) ∧
    modeOf none = "pvp" ∧ modeOf (some "") = "pvp" := by
  have h := C10_nonpve_runs_bounded none 0 1 (some "arena") false id (by simp)
  exact ⟨h.1, h.2⟩

/-! ### Concrete catalog entries used in counterexamples and bug exhibits -/

/-- PvP entry: value 500, trader cost 10, buy limit 1. -/
def itemA : RawItem :=
  { name := some "A", basePrice := some 500, traderBuyPrice := some 10, traderBuyLimit := some 1 }

/-- PvP entry: value 500, trader cost 20, buy limit 1. -/
def itemB : RawItem :=
  { name := some "B", basePrice := some 500, traderBuyPrice := some 20, traderBuyLimit := some 1 }

/-- PvP entry: value 500, trader cost 3, buy limit 1. -/
def itemC : RawItem :=
  { name := some "C", basePrice := some 500, traderBuyPrice := some 3, traderBuyLimit := some 1 }

/-- PvE entry: value 300, cost 1. -/
def itemD : RawItem := { name := some "D", basePrice := some 300, pvePrice := some 1 }

/-- PvP entry: value 50, cost 1, no buy limit. -/
def itemX : RawItem := { name := some "X", basePrice := some 50, traderBuyPrice := some 1 }

/-- PvP entry: value 1000, cost 100, no buy limit. -/
def itemY : RawItem := { name := some "Y", basePrice := some 1000, traderBuyPrice := some 100 }

/-- PvE entry whose cost equals the `INF` sentinel. -/
def itemZ : RawItem := { name := some "Z", basePrice := some 1, pvePrice := some (10 ^ 18) }

/-! ### Claim C1: spec-side feasibility (bucket of the value sum) and counterexample -/

/-- The per-candidate repetition cap of a regime: the declared cap clamped
into `1..K` in the bounded regime, `K` in the unbounded one. -/
def regimeCap (isPve : Bool) (K : Nat) (c : Candidate) : Nat :=
  if isPve then K else capClamp K c

/-- All count vectors bounded pointwise by `caps`. -/
def allKsLists : List Nat → List (List Nat)
  | [] => [[]]
  | cap :: rest => (List.range (cap + 1)).flatMap (fun k => (allKsLists rest).map (k :: ·))

/-- Total cost of a count vector over a candidate list. -/
def ksCostL (cands : List Candidate) (ks : List Nat) : Int :=
  ((ks.zip cands).map (fun p => (p.1 : Int) * p.2.cost)).sum

/-- Total value of a count vector over a candidate list. -/
def ksValueL (cands : List Candidate) (ks : List Nat) : Int :=
  ((ks.zip cands).map (fun p => (p.1 : Int) * p.2.value)).sum

/-- The claim's own feasibility notion for C1, following its words rather than
the code: multisets (count vectors) of size `1..K`, respecting the regime
caps, whose VALUE SUM's bucket is at least `thresholdBucket`; the list holds
the costs of all such multisets.  The code instead buckets each item
separately and adds the buckets, which is not the same relation. -/
def specC1Costs (isPve : Bool) (cands : List Candidate) (K tb : Nat) : List Int :=
  (allKsLists (cands.map (regimeCap isPve K))).filterMap (fun ks =>
    if 1 ≤ ks.sum ∧ ks.sum ≤ K ∧ tb ≤ ((ksValueL cands ks).toNat + (STEP - 1)) / STEP
    then some (ksCostL cands ks) else none)

/-- C1 counterexample: with candidates X (value 50, cost 1) and Y (value 1000,
cost 100), threshold 751 (bucket 2) and K = 2, the code returns total cost 2
(two X picks: the per-item buckets 1+1 reach 2) although the value sum 100 has
bucket 1, so cost 2 is not even achievable — let alone minimal — among the
claim's feasible multisets (whose value sum's bucket must reach 2). -/
theorem C1_counterexample :
    compute_cultist_selection (some [itemX, itemY]) 751 2 none false id =
      .ok { total_value := 100, total_cost := 2,
            sel_lines := ["x2 — X | value 50₽ | cost 1₽ | unknown L?"] } ∧
    (2 : Int) ∉ specC1Costs false (buildCandidates "pvp" 2 [itemX, itemY]) 2 2 :=
  ⟨by rfl, by decide⟩

/-! ### Claim C2 counterexample: quantization can undershoot the threshold -/

/-- C2 counterexample: one PvE candidate of value 300 (bucket 1) and cost 1,
threshold 751 (bucket 2), max items 2.  Two picks have bucket sum 2 ≥ 2, so
the solver succeeds, but the returned total value 600 is below the
threshold 751, violating `totalValue ≥ thresholdValue`. -/
theorem C2_counterexample :
    compute_cultist_selection (some [itemD]) 751 2 (some "pve") false id =
      .ok { total_value := 600, total_cost := 2,
            sel_lines := ["x2 — D | value 300₽ | cost 1₽"] } ∧
    ¬ ((751 : Int) ≤ 600) :=
  ⟨by rfl, by decide⟩

/-! ### Claims C3 and C8: the stale-back-pointer bug of the bounded DP -/

/-- C3 failing input: candidates A (cost 10), B (cost 20), C (cost 3), all of
value 500 and buy limit 1, threshold 751, K = 2.  Unit C improves both
`dp[2][2]` (via the pre-update `dp[1][1]`, which held unit A) and `dp[1][1]`
itself in the same pass; the back-pointer walk then visits unit C twice, so
the returned selection takes candidate C twice although its clamped cap
is 1. -/
theorem C3_cap_violation :
    compute_cultist_selection (some [itemA, itemB, itemC]) 751 2 none false id =
      .ok { total_value := 1000, total_cost := 13,
            sel_lines := ["x2 — C | value 500₽ | cost 3₽ | unknown L?"] } ∧
    (let cands := buildCandidates "pvp" 2 [itemA, itemB, itemC]
     let units := mkUnits 2 (vbMaxOf 751) cands
     (walkTab (pvpDP 2 (vbMaxOf 751) units) 2 2).map (fun j => (units.getD j dUnit).idx)
       = [2, 2]) ∧
    capClamp 2 ((buildCandidates "pvp" 2 [itemA, itemB, itemC]).getD 2 dCand) = 1 :=
  ⟨by rfl, by rfl, by rfl⟩

/-- C8 failing input (same catalog as C3): the returned `total_cost` is the DP
cell value 13, but the reconstructed selection is candidate C twice, whose
recomputed cost sum is 6 — the DP cost and the selection's cost disagree. -/
theorem C8_cost_mismatch :
    compute_cultist_selection (some [itemA, itemB, itemC]) 751 2 none false id =
      .ok { total_value := 1000, total_cost := 13,
            sel_lines := ["x2 — C | value 500₽ | cost 3₽ | unknown L?"] } ∧
    (let cands := buildCandidates "pvp" 2 [itemA, itemB, itemC]
     let units := mkUnits 2 (vbMaxOf 751) cands
     ((countsOf ((walkTab (pvpDP 2 (vbMaxOf 751) units) 2 2).map
         (fun j => (units.getD j dUnit).idx))).map
        (fun p => (cands.getD p.1 dCand).cost * (p.2 : Int))).sum = 6) ∧
    (6 : Int) ≠ 13 :=
  ⟨by rfl, by rfl, by decide⟩

/-! ### Claim C9 counterexample: the INF sentinel can block even threshold 0 -/

/-- C9 counterexample: a single valid PvE candidate whose cost equals the
`10^18` sentinel.  With threshold 0 the claim promises immediate success with
that candidate, but `new_cost < INF` never holds, so the solver raises
`NoFeasibleSelection` instead. -/
theorem C9_counterexample :
    compute_cultist_selection (some [itemZ]) 0 1 (some "pve") false id =
      .error .noFeasibleSelection :=
  by rfl

/-! ### Count vectors: the selection multisets the claims quantify over -/

/-- Number of picks of a count vector (over the first `n` candidate indices). -/
def ksTotal (n : Nat) (ks : Nat → Nat) : Nat := ∑ i in Finset.range n, ks i

/-- Clamped bucket sum of a count vector over `cands`. -/
def ksVbSum (vbMax : Nat) (cands : List Candidate) (ks : Nat → Nat) : Nat :=
  ∑ i in Finset.range cands.length, ks i * vbOf vbMax (cands.getD i dCand).value

/-- Total cost of a count vector over `cands`. -/
def ksCost (cands : List Candidate) (ks : Nat → Nat) : Int :=
  ∑ i in Finset.range cands.length, (ks i : Int) * (cands.getD i dCand).cost

/-- Total value of a count vector over `cands`. -/
def ksValue (cands : List Candidate) (ks : Nat → Nat) : Int :=
  ∑ i in Finset.range cands.length, (ks i : Int) * (cands.getD i dCand).value

theorem sum_range_update_add {M : Type} [AddCommMonoid M] {n j : Nat} (hj : j < n)
    (g : Nat → M) (b : M) :
    ∑ i in Finset.range n, Function.update g j (g j + b) i =
      (∑ i in Finset.range n, g i) + b := by
  rw [Finset.sum_update_of_mem (Finset.mem_range.mpr hj),
    Finset.sum_eq_sum_diff_singleton_add (Finset.mem_range.mpr hj) g]
  abel

theorem ksTotal_update {n j : Nat} (hj : j < n) (ks : Nat → Nat) :
    ksTotal n (Function.update ks j (ks j + 1)) = ksTotal n ks + 1 := by
  unfold ksTotal
  exact sum_range_update_add hj ks 1

theorem ksVbSum_update {vbMax : Nat} {cands : List Candidate} {j : Nat}
    (hj : j < cands.length) (ks : Nat → Nat) :
    ksVbSum vbMax cands (Function.update ks j (ks j + 1)) =
      ksVbSum vbMax cands ks + vbOf vbMax (cands.getD j dCand).value := by
  unfold ksVbSum
  have h : ∀ i, Function.update ks j (ks j + 1) i * vbOf vbMax (cands.getD i dCand).value =
      Function.update (fun i => ks i * vbOf vbMax (cands.getD i dCand).value) j
        (ks j * vbOf vbMax (cands.getD j dCand).value +
          vbOf vbMax (cands.getD j dCand).value) i := by
    intro i
    by_cases hi : i = j
    · subst hi; simp [Function.update_same]; ring
    · simp [Function.update_apply, hi]
  rw [Finset.sum_congr rfl (fun i _ => h i)]
  exact sum_range_update_add hj _ _

theorem ksCost_update {cands : List Candidate} {j : Nat} (hj : j < cands.length)
    (ks : Nat → Nat) :
    ksCost cands (Function.update ks j (ks j + 1)) =
      ksCost cands ks + (cands.getD j dCand).cost := by
  unfold ksCost
  have h : ∀ i, ((Function.update ks j (ks j + 1) i : Nat) : Int) * (cands.getD i dCand).cost =
      Function.update (fun i => ((ks i : Nat) : Int) * (cands.getD i dCand).cost) j
        ((ks j : Int) * (cands.getD j dCand).cost + (cands.getD j dCand).cost) i := by
    intro i
    by_cases hi : i = j
    · subst hi; simp [Function.update_same]; ring
    · simp [Function.update_apply, hi]
  rw [Finset.sum_congr rfl (fun i _ => h i)]
  exact sum_range_update_add hj _ _

theorem ksValue_update {cands : List Candidate} {j : Nat} (hj : j < cands.length)
    (ks : Nat → Nat) :
    ksValue cands (Function.update ks j (ks j + 1)) =
      ksValue cands ks + (cands.getD j dCand).value := by
  unfold ksValue
  have h : ∀ i, ((Function.update ks j (ks j + 1) i : Nat) : Int) * (cands.getD i dCand).value =
      Function.update (fun i => ((ks i : Nat) : Int) * (cands.getD i dCand).value) j
        ((ks j : Int) * (cands.getD j dCand).value + (cands.getD j dCand).value) i := by
    intro i
    by_cases hi : i = j
    · subst hi; simp [Function.update_same]; ring
    · simp [Function.update_apply, hi]
  rw [Finset.sum_congr rfl (fun i _ => h i)]
  exact sum_range_update_add hj _ _

/-- Split a positive count vector at some used index. -/
theorem ks_decompose {n : Nat} {ks : Nat → Nat} (h : ksTotal n ks ≠ 0) :
    ∃ j < n, ks j ≠ 0 ∧
      ks = Function.update (Function.update ks j (ks j - 1)) j
        (Function.update ks j (ks j - 1) j + 1) := by
  obtain ⟨j, hj, hne⟩ := Finset.exists_ne_zero_of_sum_ne_zero h
  refine ⟨j, Finset.mem_range.mp hj, hne, ?_⟩
  have h1 : Function.update ks j (ks j - 1) j = ks j - 1 := Function.update_same ..
  rw [h1]
  have h2 : ks j - 1 + 1 = ks j := by omega
  rw [Function.update_idem, h2, Function.update_eq_self]

/-! ### PvE DP: cell consistency, soundness and minimality -/

/-- Consistency of one DP cell's value with its back pointer: a cell with no
pointer is infinite, and a cell with pointer `(pv, j)` was produced from the
previous row at `pv` by candidate `j`. -/
def CellOK (prevRow : Nat → Int) (vbMax vb : Nat) (cands : List Candidate)
    (y : Int × Option (Nat × Nat)) : Prop :=
  (y.2 = none → y.1 = INF) ∧
  (∀ pv j, y.2 = some (pv, j) →
    j < cands.length ∧
    vbOf vbMax (cands.getD j dCand).value ≤ vb ∧
    pv = vb - vbOf vbMax (cands.getD j dCand).value ∧
    prevRow pv ≠ INF ∧
    y.1 = prevRow pv + (cands.getD j dCand).cost ∧ y.1 < INF)

theorem CellOK.le_INF {prevRow : Nat → Int} {vbMax vb : Nat} {cands : List Candidate}
    {y : Int × Option (Nat × Nat)} (h : CellOK prevRow vbMax vb cands y) : y.1 ≤ INF := by
  match hy : y.2 with
  | none => exact le_of_eq (h.1 hy)
  | some (pv, j) => exact le_of_lt (h.2 pv j hy).2.2.2.2.2

theorem pveStep1_le {prevRow : Nat → Int} {vbMax vb i : Nat} {it : Candidate}
    {best : Int × Option (Nat × Nat)} :
    (pveStep1 prevRow vbMax vb i it best).1 ≤ best.1 := by
  unfold pveStep1
  split
  · split
    · exact le_refl _
    · split
      · simp only; omega
      · exact le_refl _
  · exact le_refl _

theorem pveStep1_cellOK {prevRow : Nat → Int} {vbMax vb : Nat} {cands : List Candidate}
    {i : Nat} {it : Candidate} {best : Int × Option (Nat × Nat)}
    (hit : cands.getD i dCand = it) (hi : i < cands.length)
    (hb : CellOK prevRow vbMax vb cands best) :
    CellOK prevRow vbMax vb cands (pveStep1 prevRow vbMax vb i it best) := by
  subst hit
  have hble : best.1 ≤ INF := hb.le_INF
  unfold pveStep1
  split
  · rename_i hvb
    split
    · exact hb
    · rename_i hcp
      split
      · rename_i hlt
        have hfin : prevRow (vb - vbOf vbMax (cands.getD i dCand).value) +
            (cands.getD i dCand).cost < INF := by omega
        constructor
        · intro h; simp at h
        · intro pv j h
          simp only [Option.some.injEq, Prod.mk.injEq] at h
          obtain ⟨rfl, rfl⟩ := h
          exact ⟨hi, hvb, rfl, hcp, rfl, hfin⟩
      · exact hb
  · exact hb

theorem pveBestFrom_le_init {prevRow : Nat → Int} {vbMax vb : Nat} :
    ∀ (l : List Candidate) (i : Nat) (best : Int × Option (Nat × Nat)),
      (pveBestFrom prevRow vbMax vb i l best).1 ≤ best.1 := by
  intro l
  induction l with
  | nil => intro i best; exact le_refl _
  | cons it rest ih =>
    intro i best
    exact le_trans (ih (i + 1) _) pveStep1_le

theorem pveBestFrom_cellOK {prevRow : Nat → Int} {vbMax vb : Nat} {cands : List Candidate} :
    ∀ (l : List Candidate) (i : Nat) (best : Int × Option (Nat × Nat)),
      (∀ k, k < l.length → l.getD k dCand = cands.getD (i + k) dCand) →
      i + l.length ≤ cands.length →
      CellOK prevRow vbMax vb cands best →
      CellOK prevRow vbMax vb cands (pveBestFrom prevRow vbMax vb i l best) := by
  intro l
  induction l with
  | nil => intro i best _ _ hb; exact hb
  | cons it rest ih =>
    intro i best hsub hlen hb
    simp only [List.length_cons] at hlen
    refine ih (i + 1) _ ?_ (by omega) ?_
    · intro k hk
      have := hsub (k + 1) (by simp; omega)
      simpa [Nat.add_assoc, Nat.add_comm 1 k] using this
    · have h0 := hsub 0 (by simp)
      simp only [List.getD_cons_zero, Nat.add_zero] at h0
      exact pveStep1_cellOK h0.symm (by omega) hb

theorem pveBestFrom_ub {prevRow : Nat → Int} {vbMax vb : Nat} :
    ∀ (l : List Candidate) (i : Nat) (best : Int × Option (Nat × Nat)) (k : Nat),
      k < l.length →
      vbOf vbMax (l.getD k dCand).value ≤ vb →
      prevRow (vb - vbOf vbMax (l.getD k dCand).value) ≠ INF →
      (pveBestFrom prevRow vbMax vb i l best).1 ≤
        prevRow (vb - vbOf vbMax (l.getD k dCand).value) + (l.getD k dCand).cost := by
  intro l
  induction l with
  | nil => intro i best k hk; simp at hk
  | cons it rest ih =>
    intro i best k hk hvb hcp
    match k with
    | 0 =>
      simp only [List.getD_cons_zero] at hvb hcp ⊢
      have hstep : (pveStep1 prevRow vbMax vb i it best).1 ≤
          prevRow (vb - vbOf vbMax it.value) + it.cost := by
        unfold pveStep1
        rw [if_pos hvb, if_neg hcp]
        split
        · exact le_refl _
        · omega
      exact le_trans (pveBestFrom_le_init rest (i + 1) _) hstep
    | k + 1 =>
      simp only [List.getD_cons_succ] at hvb hcp ⊢
      exact ih (i + 1) _ k (by simp at hk; omega) hvb hcp

/-- The initial accumulator `(INF, none)` is consistent. -/
theorem cellOK_init {prevRow : Nat → Int} {vbMax vb : Nat} {cands : List Candidate} :
    CellOK prevRow vbMax vb cands (INF, none) :=
  ⟨fun _ => rfl, by rintro pv j h; simp at h⟩

/-- Every successor-row cell of the PvE DP is consistent with its pointer. -/
theorem pveDP_cellOK (vbMax : Nat) (cands : List Candidate) (c vb : Nat) :
    CellOK (fun pv => (pveDP vbMax cands c pv).1) vbMax vb cands
      (pveDP vbMax cands (c + 1) vb) := by
  show CellOK _ _ _ _ (pveBestFrom _ vbMax vb 0 cands (INF, none))
  exact pveBestFrom_cellOK cands 0 (INF, none)
    (fun k hk => by simp) (by omega) cellOK_init

theorem pveDP_le_INF (vbMax : Nat) (cands : List Candidate) :
    ∀ c vb, (pveDP vbMax cands c vb).1 ≤ INF := by
  intro c vb
  match c with
  | 0 =>
    show (if vb = 0 then (0 : Int) else INF, (none : Option (Nat × Nat))).1 ≤ INF
    split
    · unfold INF; norm_num
    · exact le_refl _
  | c + 1 => exact (pveDP_cellOK vbMax cands c vb).le_INF

theorem pveDP_succ_ub (vbMax : Nat) (cands : List Candidate) (c vb j : Nat)
    (hj : j < cands.length)
    (hvb : vbOf vbMax (cands.getD j dCand).value ≤ vb)
    (hcp : (pveDP vbMax cands c (vb - vbOf vbMax (cands.getD j dCand).value)).1 ≠ INF) :
    (pveDP vbMax cands (c + 1) vb).1 ≤
      (pveDP vbMax cands c (vb - vbOf vbMax (cands.getD j dCand).value)).1 +
        (cands.getD j dCand).cost := by
  show (pveBestFrom _ vbMax vb 0 cands (INF, none)).1 ≤ _
  exact pveBestFrom_ub cands 0 (INF, none) j hj hvb hcp

/-- Soundness: every finite PvE DP cell is achieved by a count vector with
exactly that count, bucket sum and cost. -/
theorem pveDP_sound (vbMax : Nat) (cands : List Candidate) :
    ∀ c vb, (pveDP vbMax cands c vb).1 < INF →
      ∃ ks : Nat → Nat, ksTotal cands.length ks = c ∧ ksVbSum vbMax cands ks = vb ∧
        ksCost cands ks = (pveDP vbMax cands c vb).1 := by
  intro c
  induction c with
  | zero =>
    intro vb h
    by_cases hvb : vb = 0
    · subst hvb
      refine ⟨fun _ => 0, ?_, ?_, ?_⟩
      · exact Finset.sum_eq_zero fun _ _ => rfl
      · exact Finset.sum_eq_zero fun _ _ => by simp
      · show _ = (pveDP vbMax cands 0 0).1
        show _ = (if (0 : Nat) = 0 then (0 : Int) else INF, (none : Option (Nat × Nat))).1
        simp [ksCost]
    · exfalso
      have : (pveDP vbMax cands 0 vb).1 = INF := by
        show (if vb = 0 then (0 : Int) else INF, (none : Option (Nat × Nat))).1 = INF
        simp [hvb]
      omega
  | succ c ih =>
    intro vb h
    have hOK := pveDP_cellOK vbMax cands c vb
    match hy : (pveDP vbMax cands (c + 1) vb).2 with
    | none => exact absurd (hOK.1 hy) (by omega)
    | some (pv, j) =>
      obtain ⟨hj, hvb, hpv, hcp, heq, _⟩ := hOK.2 pv j hy
      have hlt : (pveDP vbMax cands c pv).1 < INF :=
        lt_of_le_of_ne (pveDP_le_INF vbMax cands c pv) hcp
      obtain ⟨ks, ht, hv, hc⟩ := ih pv hlt
      refine ⟨Function.update ks j (ks j + 1), ?_, ?_, ?_⟩
      · rw [ksTotal_update hj, ht]
      · rw [ksVbSum_update hj, hv, hpv]; omega
      · rw [ksCost_update hj, hc, heq]

/-- Minimality: no count vector with the same count and bucket sum and a cost
below the sentinel beats the PvE DP cell. -/
theorem pveDP_min (vbMax : Nat) (cands : List Candidate)
    (hpos : ∀ cd ∈ cands, 0 < cd.cost) :
    ∀ c vb (ks : Nat → Nat), ksTotal cands.length ks = c →
      ksVbSum vbMax cands ks = vb → ksCost cands ks < INF →
      (pveDP vbMax cands c vb).1 ≤ ksCost cands ks := by
  intro c
  induction c with
  | zero =>
    intro vb ks ht hv _
    have hz : ∀ i ∈ Finset.range cands.length, ks i = 0 :=
      Finset.sum_eq_zero_iff.mp ht
    have hv0 : vb = 0 := by
      rw [← hv]
      exact Finset.sum_eq_zero fun i hi => by rw [hz i hi]; ring
    have hc0 : ksCost cands ks = 0 :=
      Finset.sum_eq_zero fun i hi => by rw [hz i hi]; simp
    subst hv0
    rw [hc0]
    show (if (0 : Nat) = 0 then (0 : Int) else INF, (none : Option (Nat × Nat))).1 ≤ 0
    simp
  | succ c ih =>
    intro vb ks ht hv hc
    obtain ⟨j, hj, hne, hks⟩ := @ks_decompose cands.length ks (by omega)
    set ks' := Function.update ks j (ks j - 1) with hks'
    have hjpos : 0 < (cands.getD j dCand).cost := by
      have : cands.getD j dCand ∈ cands := by
        rw [List.getD_eq_getElem cands dCand hj]
        exact List.getElem_mem hj
      exact hpos _ this
    have ht' : ksTotal cands.length ks' = c := by
      have := ksTotal_update hj ks'
      rw [← hks] at this
      omega
    have hv' : ksVbSum vbMax cands ks' + vbOf vbMax (cands.getD j dCand).value = vb := by
      have := @ksVbSum_update vbMax cands j hj ks'
      rw [← hks] at this
      omega
    have hc' : ksCost cands ks' + (cands.getD j dCand).cost = ksCost cands ks := by
      have := ksCost_update hj ks'
      rw [← hks] at this
      omega
    have hcs : ksCost cands ks' < INF := by omega
    have hih := ih (ksVbSum vbMax cands ks') ks' ht' rfl hcs
    have hfin : (pveDP vbMax cands c (ksVbSum vbMax cands ks')).1 ≠ INF := by
      have := hih
      omega
    have hub := pveDP_succ_ub vbMax cands c vb j hj (by omega)
      (by rw [show vb - vbOf vbMax (cands.getD j dCand).value = ksVbSum vbMax cands ks'
            from by omega]
          exact hfin)
    rw [show vb - vbOf vbMax (cands.getD j dCand).value = ksVbSum vbMax cands ks'
      from by omega] at hub
    omega

/-- The PvE back-pointer walk from a finite cell reproduces its count, bucket
sum and cost exactly (the previous row is final when a row is built, so PvE
pointers never go stale). -/
theorem pveWalk_spec (vbMax : Nat) (cands : List Candidate) :
    ∀ c vb, (pveDP vbMax cands c vb).1 < INF →
      (walkTab (pveDP vbMax cands) c vb).length = c ∧
      (∀ j ∈ walkTab (pveDP vbMax cands) c vb, j < cands.length) ∧
      ((walkTab (pveDP vbMax cands) c vb).map
        (fun j => vbOf vbMax (cands.getD j dCand).value)).sum = vb ∧
      ((walkTab (pveDP vbMax cands) c vb).map
        (fun j => (cands.getD j dCand).cost)).sum = (pveDP vbMax cands c vb).1 := by
  intro c
  induction c with
  | zero =>
    intro vb h
    have hvb : vb = 0 := by
      by_contra hv
      have : (pveDP vbMax cands 0 vb).1 = INF := by
        show (if vb = 0 then (0 : Int) else INF, (none : Option (Nat × Nat))).1 = INF
        simp [hv]
      omega
    subst hvb
    exact ⟨rfl, by simp [walkTab], rfl, rfl⟩
  | succ c ih =>
    intro vb h
    have hOK := pveDP_cellOK vbMax cands c vb
    match hy : (pveDP vbMax cands (c + 1) vb).2 with
    | none => exact absurd (hOK.1 hy) (by omega)
    | some (pv, j) =>
      obtain ⟨hj, hvb, hpv, hcp, heq, _⟩ := hOK.2 pv j hy
      have hcp' : (pveDP vbMax cands c pv).1 ≠ INF := hcp
      have heq' : (pveDP vbMax cands (c + 1) vb).1 =
          (pveDP vbMax cands c pv).1 + (cands.getD j dCand).cost := heq
      have hlt : (pveDP vbMax cands c pv).1 < INF :=
        lt_of_le_of_ne (pveDP_le_INF vbMax cands c pv) hcp'
      obtain ⟨ihl, ihmem, ihvb, ihcost⟩ := ih pv hlt
      have hw : walkTab (pveDP vbMax cands) (c + 1) vb =
          j :: walkTab (pveDP vbMax cands) c pv := by
        show (match (pveDP vbMax cands (c + 1) vb).2 with
          | none => []
          | some (pv, j) => j :: walkTab (pveDP vbMax cands) c pv) = _
        rw [hy]
      rw [hw]
      refine ⟨by simp [ihl], ?_, ?_, ?_⟩
      · intro k hk
        rcases List.mem_cons.mp hk with rfl | hk
        · exact hj
        · exact ihmem k hk
      · simp only [List.map_cons, List.sum_cons, ihvb]
        omega
      · simp only [List.map_cons, List.sum_cons, ihcost]
        omega

/-! ### Counting, sorting and aggregation lemmas -/

theorem bumpCount_wsumI (f : Nat → Int) :
    ∀ (acc : List (Nat × Nat)) (i : Nat),
      ((bumpCount acc i).map (fun p => f p.1 * (p.2 : Int))).sum =
        (acc.map (fun p => f p.1 * (p.2 : Int))).sum + f i := by
  intro acc
  induction acc with
  | nil => intro i; simp [bumpCount]
  | cons p rest ih =>
    intro i
    match p with
    | (j, n) =>
      unfold bumpCount
      split
      · rename_i hj
        subst hj
        simp only [List.map_cons, List.sum_cons]
        push_cast
        ring
      · simp only [List.map_cons, List.sum_cons, ih]
        ring

theorem bumpCount_wsumN (f : Nat → Nat) :
    ∀ (acc : List (Nat × Nat)) (i : Nat),
      ((bumpCount acc i).map (fun p => f p.1 * p.2)).sum =
        (acc.map (fun p => f p.1 * p.2)).sum + f i := by
  intro acc
  induction acc with
  | nil => intro i; simp [bumpCount]
  | cons p rest ih =>
    intro i
    match p with
    | (j, n) =>
      unfold bumpCount
      split
      · rename_i hj
        subst hj
        simp only [List.map_cons, List.sum_cons]
        ring
      · simp only [List.map_cons, List.sum_cons, ih]
        ring

theorem countsOf_wsumI (f : Nat → Int) (w : List Nat) :
    ((countsOf w).map (fun p => f p.1 * (p.2 : Int))).sum = (w.map f).sum := by
  suffices h : ∀ (acc : List (Nat × Nat)),
      ((w.foldl bumpCount acc).map (fun p => f p.1 * (p.2 : Int))).sum =
        (acc.map (fun p => f p.1 * (p.2 : Int))).sum + (w.map f).sum by
    have := h []
    simpa [countsOf] using this
  induction w with
  | nil => intro acc; simp
  | cons a w ih =>
    intro acc
    simp only [List.foldl_cons, List.map_cons, List.sum_cons, ih, bumpCount_wsumI]
    ring

theorem countsOf_wsumN (f : Nat → Nat) (w : List Nat) :
    ((countsOf w).map (fun p => f p.1 * p.2)).sum = (w.map f).sum := by
  suffices h : ∀ (acc : List (Nat × Nat)),
      ((w.foldl bumpCount acc).map (fun p => f p.1 * p.2)).sum =
        (acc.map (fun p => f p.1 * p.2)).sum + (w.map f).sum by
    have := h []
    simpa [countsOf] using this
  induction w with
  | nil => intro acc; simp
  | cons a w ih =>
    intro acc
    simp only [List.foldl_cons, List.map_cons, List.sum_cons, ih, bumpCount_wsumN]
    ring

theorem insertSorted_perm {α : Type} (le : α → α → Bool) (a : α) (l : List α) :
    (insertSorted le a l).Perm (a :: l) := by
  induction l with
  | nil => exact List.Perm.refl _
  | cons b rest ih =>
    unfold insertSorted
    split
    · exact List.Perm.refl _
    · exact (ih.cons b).trans (List.Perm.swap a b rest)

theorem sortBy_perm {α : Type} (le : α → α → Bool) (l : List α) :
    (sortBy le l).Perm l := by
  induction l with
  | nil => exact List.Perm.refl _
  | cons a rest ih =>
    exact (insertSorted_perm le a (sortBy le rest)).trans (ih.cons a)

/-- `total_value` of the aggregate is the value sum over the walked indices. -/
theorem aggregate_total_value (sm : String) (cands : List Candidate) (bestCost : Int)
    (w : List Nat) :
    (aggregate sm cands bestCost w).total_value =
      (w.map (fun j => (cands.getD j dCand).value)).sum := by
  show ((sortBy (dispLe cands) (countsOf w)).map
    (fun p => (cands.getD p.1 dCand).value * (p.2 : Int))).sum = _
  have hperm := (sortBy_perm (dispLe cands) (countsOf w)).map
    (fun p => (cands.getD p.1 dCand).value * (p.2 : Int))
  rw [hperm.sum_eq]
  exact countsOf_wsumI (fun j => (cands.getD j dCand).value) w

/-- `total_cost` of the aggregate is the DP cell cost, not a recomputed sum. -/
theorem aggregate_total_cost (sm : String) (cands : List Candidate) (bestCost : Int)
    (w : List Nat) : (aggregate sm cands bestCost w).total_cost = bestCost := rfl

/-! ### PvP DP: 0/1 characterization over unit sublists -/

/-- Cost of a unit selection. -/
def uCost (S : List UnitItem) : Int := (S.map (fun u => u.cost)).sum

/-- Bucket sum of a unit selection. -/
def uVb (S : List UnitItem) : Nat := (S.map (fun u => u.vb)).sum

theorem uCost_append (a b : List UnitItem) : uCost (a ++ b) = uCost a + uCost b := by
  simp [uCost]

theorem uVb_append (a b : List UnitItem) : uVb (a ++ b) = uVb a + uVb b := by
  simp [uVb]

theorem uCost_replicate (m : Nat) (u : UnitItem) :
    uCost (List.replicate m u) = (m : Int) * u.cost := by
  simp [uCost, List.map_replicate, List.sum_replicate, nsmul_eq_mul]

theorem uVb_replicate (m : Nat) (u : UnitItem) :
    uVb (List.replicate m u) = m * u.vb := by
  simp [uVb, List.map_replicate, List.sum_replicate, smul_eq_mul]

/-- Value part of the PvP table invariant, relative to the units processed so
far: every finite window cell is the cost of some sublist of the processed
units with matching count and bucket sum, and beats every such sublist. -/
def PvpVal (K vbMax : Nat) (processed : List UnitItem)
    (tab : Nat → Nat → Int × Option (Nat × Nat)) : Prop :=
  ∀ c vb, c ≤ K → vb ≤ vbMax →
    ((tab c vb).1 < INF →
      ∃ S : List UnitItem, S.Sublist processed ∧ S.length = c ∧ uVb S = vb ∧
        uCost S = (tab c vb).1) ∧
    (∀ S : List UnitItem, S.Sublist processed → S.length = c → uVb S = vb →
      uCost S < INF → (tab c vb).1 ≤ uCost S)

/-- Pointer part of the PvP table invariant, relative to the full unit list:
cells outside the update window still hold their initial value, all cells are
at most `INF`, and each window pointer records a valid unit whose bucket
arithmetic is consistent; in row 1 even the cost is consistent (row 0 never
changes), but in higher rows the pointed-to cost may have gone stale. -/
def PvpPtr (K vbMax : Nat) (units : List UnitItem)
    (tab : Nat → Nat → Int × Option (Nat × Nat)) : Prop :=
  (∀ c vb, ¬(1 ≤ c ∧ c ≤ K ∧ vb ≤ vbMax) → tab c vb = dpInit c vb) ∧
  (∀ c vb, (tab c vb).1 ≤ INF) ∧
  (∀ c vb, 1 ≤ c → c ≤ K → vb ≤ vbMax →
    ((tab c vb).2 = none → (tab c vb).1 = INF) ∧
    (∀ pv j, (tab c vb).2 = some (pv, j) →
      j < units.length ∧ (units.getD j dUnit).vb ≤ vb ∧
      pv = vb - (units.getD j dUnit).vb ∧
      (tab (c - 1) pv).1 < INF ∧ (tab c vb).1 < INF ∧
      (c = 1 → (tab c vb).1 = (units.getD j dUnit).cost)))

theorem pvpStep_le (K vbMax i : Nat) (u : UnitItem)
    (tab : Nat → Nat → Int × Option (Nat × Nat)) (c vb : Nat) :
    (pvpStep K vbMax i u tab c vb).1 ≤ (tab c vb).1 := by
  unfold pvpStep
  split
  · split
    · exact le_refl _
    · split
      · simp only; omega
      · exact le_refl _
  · exact le_refl _

theorem pvpStep_outside (K vbMax i : Nat) (u : UnitItem)
    (tab : Nat → Nat → Int × Option (Nat × Nat)) (c vb : Nat)
    (h : ¬(1 ≤ c ∧ c ≤ K ∧ vb ≤ vbMax)) :
    pvpStep K vbMax i u tab c vb = tab c vb := by
  unfold pvpStep
  rw [if_neg (by tauto)]

/-- One unit pass preserves the value invariant, with the unit appended. -/
theorem pvpStep_val {K vbMax i : Nat} {u : UnitItem} {processed : List UnitItem}
    {tab : Nat → Nat → Int × Option (Nat × Nat)}
    (hcost : 0 < u.cost) (hval : PvpVal K vbMax processed tab) :
    PvpVal K vbMax (processed ++ [u]) (fun c vb => pvpStep K vbMax i u tab c vb) := by
  intro c vb hc hvb
  constructor
  · -- soundness
    intro hfin
    by_cases hg : 1 ≤ c ∧ c ≤ K ∧ u.vb ≤ vb ∧ vb ≤ vbMax
    · simp only [pvpStep, if_pos hg] at hfin ⊢
      by_cases hcp : (tab (c - 1) (vb - u.vb)).1 = INF
      · rw [if_pos hcp] at hfin ⊢
        obtain ⟨S, hS, h1, h2, h3⟩ := ((hval c vb hc hvb).1 hfin)
        exact ⟨S, hS.trans (List.sublist_append_left processed [u]), h1, h2, h3⟩
      · rw [if_neg hcp] at hfin ⊢
        by_cases hlt : (tab (c - 1) (vb - u.vb)).1 + u.cost < (tab c vb).1
        · rw [if_pos hlt] at hfin ⊢
          have hcpfin : (tab (c - 1) (vb - u.vb)).1 < INF := by
            have := (hval c vb hc hvb)
            -- cells may exceed the window bound only through INF; here we only
            -- need that the previous cell is finite, which is hcp plus an
            -- upper bound; derive it from hfin instead
            simp only at hfin
            omega
          obtain ⟨S', hS', h1, h2, h3⟩ :=
            ((hval (c - 1) (vb - u.vb) (by omega) (by omega)).1 hcpfin)
          refine ⟨S' ++ [u], hS'.append (List.Sublist.refl [u]), ?_, ?_, ?_⟩
          · simp [h1]; omega
          · rw [uVb_append, h2]
            show _ + uVb [u] = vb
            have : uVb [u] = u.vb := by simp [uVb]
            omega
          · rw [uCost_append, h3]
            show _ + uCost [u] = _
            have : uCost [u] = u.cost := by simp [uCost]
            rw [this]
        · rw [if_neg hlt] at hfin ⊢
          obtain ⟨S, hS, h1, h2, h3⟩ := ((hval c vb hc hvb).1 hfin)
          exact ⟨S, hS.trans (List.sublist_append_left processed [u]), h1, h2, h3⟩
    · simp only [pvpStep, if_neg hg] at hfin ⊢
      obtain ⟨S, hS, h1, h2, h3⟩ := ((hval c vb hc hvb).1 hfin)
      exact ⟨S, hS.trans (List.sublist_append_left processed [u]), h1, h2, h3⟩
  · -- minimality
    intro S hS hlen hvbS hcS
    rcases List.sublist_append_iff.mp hS with ⟨S₁, S₂, rfl, hS₁, hS₂⟩
    rcases List.sublist_replicate_iff.mp (by simpa using hS₂ :
        S₂.Sublist (List.replicate 1 u)) with ⟨m, hm, rfl⟩
    match m, hm with
    | 0, _ =>
      -- the new unit is not used
      simp only [List.replicate_zero, List.append_nil] at hlen hvbS hcS ⊢
      exact le_trans (pvpStep_le K vbMax i u tab c vb)
        ((hval c vb hc hvb).2 S₁ hS₁ hlen hvbS hcS)
    | 1, _ =>
      -- the new unit is used once
      have huvb : uVb (S₁ ++ List.replicate 1 u) = uVb S₁ + u.vb := by
        rw [uVb_append, uVb_replicate]; ring
      have hucost : uCost (S₁ ++ List.replicate 1 u) = uCost S₁ + u.cost := by
        rw [uCost_append, uCost_replicate]; ring
      have hlen' : S₁.length = c - 1 ∧ 1 ≤ c := by
        simp at hlen; omega
      have hvb' : uVb S₁ = vb - u.vb ∧ u.vb ≤ vb := by omega
      have hc' : uCost S₁ < INF := by omega
      have hmin := (hval (c - 1) (vb - u.vb) (by omega) (by omega)).2 S₁ hS₁
        hlen'.1 hvb'.1 hc'
      have hg : 1 ≤ c ∧ c ≤ K ∧ u.vb ≤ vb ∧ vb ≤ vbMax := ⟨hlen'.2, hc, hvb'.2, hvb⟩
      simp only [pvpStep, if_pos hg]
      have hcp : ¬(tab (c - 1) (vb - u.vb)).1 = INF := by omega
      rw [if_neg hcp]
      split
      · simp only; omega
      · omega

/-- One unit pass preserves the pointer invariant. -/
theorem pvpStep_ptr {K vbMax i : Nat} {u : UnitItem} {units : List UnitItem}
    {tab : Nat → Nat → Int × Option (Nat × Nat)}
    (hi : i < units.length) (hgetD : units.getD i dUnit = u)
    (hptr : PvpPtr K vbMax units tab) :
    PvpPtr K vbMax units (fun c vb => pvpStep K vbMax i u tab c vb) := by
  obtain ⟨hA, hB, hC⟩ := hptr
  refine ⟨?_, ?_, ?_⟩
  · intro c vb h
    have hng : ¬(1 ≤ c ∧ c ≤ K ∧ u.vb ≤ vb ∧ vb ≤ vbMax) := by tauto
    simp only [pvpStep, if_neg hng]
    exact hA c vb h
  · intro c vb
    exact le_trans (pvpStep_le K vbMax i u tab c vb) (hB c vb)
  · intro c vb h1 h2 h3
    by_cases hg : 1 ≤ c ∧ c ≤ K ∧ u.vb ≤ vb ∧ vb ≤ vbMax
    · simp only [pvpStep, if_pos hg]
      by_cases hcp : (tab (c - 1) (vb - u.vb)).1 = INF
      · rw [if_pos hcp]
        refine ⟨(hC c vb h1 h2 h3).1, ?_⟩
        intro pv j hj
        obtain ⟨f1, f2, f3, f4, f5, f6⟩ := (hC c vb h1 h2 h3).2 pv j hj
        exact ⟨f1, f2, f3,
          lt_of_le_of_lt (pvpStep_le K vbMax i u tab (c - 1) pv) f4, f5, f6⟩
      · rw [if_neg hcp]
        by_cases hlt : (tab (c - 1) (vb - u.vb)).1 + u.cost < (tab c vb).1
        · rw [if_pos hlt]
          constructor
          · intro h; simp at h
          · intro pv j hj
            simp only [Option.some.injEq, Prod.mk.injEq] at hj
            obtain ⟨rfl, rfl⟩ := hj
            rw [hgetD]
            have hcplt : (tab (c - 1) (vb - u.vb)).1 < INF :=
              lt_of_le_of_ne (hB (c - 1) (vb - u.vb)) hcp
            have hfin : (tab (c - 1) (vb - u.vb)).1 + u.cost < INF :=
              lt_of_lt_of_le hlt (hB c vb)
            refine ⟨hi, hg.2.2.1, rfl, ?_, hfin, ?_⟩
            · exact lt_of_le_of_lt
                (pvpStep_le K vbMax i u tab (c - 1) (vb - u.vb)) hcplt
            · intro hc1
              subst hc1
              have h0 : tab 0 (vb - u.vb) = dpInit 0 (vb - u.vb) :=
                hA 0 (vb - u.vb) (by omega)
              have hcp0 : (tab 0 (vb - u.vb)).1 = 0 := by
                rw [h0]
                unfold dpInit
                by_cases hpv : vb - u.vb = 0
                · simp [hpv]
                · exfalso
                  apply hcp
                  rw [h0]
                  unfold dpInit
                  simp [hpv]
              simp only [Nat.sub_self] at hcp0 ⊢
              show (tab 0 (vb - u.vb)).1 + u.cost = u.cost
              omega
        · rw [if_neg hlt]
          refine ⟨(hC c vb h1 h2 h3).1, ?_⟩
          intro pv j hj
          obtain ⟨f1, f2, f3, f4, f5, f6⟩ := (hC c vb h1 h2 h3).2 pv j hj
          exact ⟨f1, f2, f3,
            lt_of_le_of_lt (pvpStep_le K vbMax i u tab (c - 1) pv) f4, f5, f6⟩
    · simp only [pvpStep, if_neg hg]
      refine ⟨(hC c vb h1 h2 h3).1, ?_⟩
      intro pv j hj
      obtain ⟨f1, f2, f3, f4, f5, f6⟩ := (hC c vb h1 h2 h3).2 pv j hj
      exact ⟨f1, f2, f3,
        lt_of_le_of_lt (pvpStep_le K vbMax i u tab (c - 1) pv) f4, f5, f6⟩

theorem getD_append_length {α : Type} (l₁ : List α) (a : α) (l₂ : List α) (d : α) :
    (l₁ ++ a :: l₂).getD l₁.length d = a := by
  induction l₁ with
  | nil => rfl
  | cons b l₁ ih => simpa using ih

/-- Processing the remaining units preserves both invariants. -/
theorem pvpDPFrom_inv (K vbMax : Nat) (units : List UnitItem)
    (hupos : ∀ v ∈ units, 0 < v.cost) :
    ∀ (rest processed : List UnitItem) (tab : Nat → Nat → Int × Option (Nat × Nat)),
      units = processed ++ rest →
      PvpVal K vbMax processed tab →
      PvpPtr K vbMax units tab →
      PvpVal K vbMax units (pvpDPFrom K vbMax processed.length rest tab) ∧
      PvpPtr K vbMax units (pvpDPFrom K vbMax processed.length rest tab) := by
  intro rest
  induction rest with
  | nil =>
    intro processed tab hu hval hptr
    have hpu : processed = units := by rw [hu, List.append_nil]
    subst hpu
    exact ⟨hval, hptr⟩
  | cons u rest ih =>
    intro processed tab hu hval hptr
    have hi : processed.length < units.length := by rw [hu]; simp
    have hgetD : units.getD processed.length dUnit = u := by
      rw [hu]; exact getD_append_length processed u rest dUnit
    have hucost : 0 < u.cost := hupos u (by rw [hu]; simp)
    have hu' : units = (processed ++ [u]) ++ rest := by rw [hu]; simp
    have hres := ih (processed ++ [u])
      (fun c vb => pvpStep K vbMax processed.length u tab c vb) hu'
      (pvpStep_val hucost hval) (pvpStep_ptr hi hgetD hptr)
    have hlen : (processed ++ [u]).length = processed.length + 1 := by simp
    rw [hlen] at hres
    exact hres

/-- The finished PvP DP table satisfies both invariants. -/
theorem pvpDP_inv (K vbMax : Nat) (units : List UnitItem)
    (hupos : ∀ v ∈ units, 0 < v.cost) :
    PvpVal K vbMax units (pvpDP K vbMax units) ∧
    PvpPtr K vbMax units (pvpDP K vbMax units) := by
  have hval0 : PvpVal K vbMax [] dpInit := by
    intro c vb hc hvb
    constructor
    · intro hfin
      by_cases h : c = 0 ∧ vb = 0
      · obtain ⟨rfl, rfl⟩ := h
        exact ⟨[], List.Sublist.refl [], rfl, rfl, by simp [uCost, dpInit]⟩
      · exfalso
        have : (dpInit c vb).1 = INF := by unfold dpInit; simp [h]
        omega
    · intro S hS hlen hvb' hcost
      have hSnil : S = [] := List.sublist_nil.mp hS
      subst hSnil
      have hc0 : c = 0 := by simpa using hlen.symm
      have hv0 : vb = 0 := by simpa [uVb] using hvb'.symm
      subst hc0; subst hv0
      show (dpInit 0 0).1 ≤ uCost []
      simp [dpInit, uCost]
  have hptr0 : PvpPtr K vbMax units dpInit := by
    refine ⟨fun _ _ _ => rfl, ?_, ?_⟩
    · intro c vb
      unfold dpInit
      split
      · unfold INF; norm_num
      · exact le_refl _
    · intro c vb h1 _ _
      constructor
      · intro _
        unfold dpInit
        simp only
        rw [if_neg (by omega)]
      · intro pv j hj
        exact absurd hj (by unfold dpInit; simp)
  have := pvpDPFrom_inv K vbMax units hupos units [] dpInit (by simp) hval0 hptr0
  exact this

/-- The PvP back-pointer walk from a finite window cell has the right length
and bucket sum and visits only valid unit indices.  Its cost sum is NOT
claimed: pointers can go stale (see `C8_cost_mismatch`). -/
theorem pvpWalk_spec (K vbMax : Nat) (units : List UnitItem)
    (hptr : PvpPtr K vbMax units (pvpDP K vbMax units)) :
    ∀ c vb, c ≤ K → vb ≤ vbMax → ((pvpDP K vbMax units) c vb).1 < INF →
      (walkTab (pvpDP K vbMax units) c vb).length = c ∧
      (∀ j ∈ walkTab (pvpDP K vbMax units) c vb, j < units.length) ∧
      ((walkTab (pvpDP K vbMax units) c vb).map
        (fun j => (units.getD j dUnit).vb)).sum = vb := by
  intro c
  induction c with
  | zero =>
    intro vb _ _ hfin
    have h0 : pvpDP K vbMax units 0 vb = dpInit 0 vb := hptr.1 0 vb (by omega)
    have hvb : vb = 0 := by
      by_contra hv
      have : (dpInit 0 vb).1 = INF := by unfold dpInit; simp [hv]
      rw [h0] at hfin
      omega
    subst hvb
    exact ⟨rfl, by simp [walkTab], rfl⟩
  | succ c ih =>
    intro vb hc hvb hfin
    have hwin := hptr.2.2 (c + 1) vb (by omega) hc hvb
    match hy : (pvpDP K vbMax units (c + 1) vb).2 with
    | none => exact absurd (hwin.1 hy) (by omega)
    | some (pv, j) =>
      obtain ⟨f1, f2, f3, f4, _, _⟩ := hwin.2 pv j hy
      simp only [Nat.add_sub_cancel] at f4
      have hrec := ih pv (by omega) (by omega) f4
      have hw : walkTab (pvpDP K vbMax units) (c + 1) vb =
          j :: walkTab (pvpDP K vbMax units) c pv := by
        show (match (pvpDP K vbMax units (c + 1) vb).2 with
          | none => []
          | some (pv, j) => j :: walkTab (pvpDP K vbMax units) c pv) = _
        rw [hy]
      rw [hw]
      refine ⟨by simp [hrec.1], ?_, ?_⟩
      · intro k hk
        rcases List.mem_cons.mp hk with rfl | hk
        · exact f1
        · exact hrec.2.1 k hk
      · simp only [List.map_cons, List.sum_cons, hrec.2.2]
        omega

/-! ### Bridging unit sublists and capped count vectors -/

theorem mkUnitsFrom_cost_pos (K vbMax : Nat) :
    ∀ (l : List Candidate) (s : Nat), (∀ cd ∈ l, 0 < cd.cost) →
      ∀ v ∈ mkUnitsFrom K vbMax s l, 0 < v.cost := by
  intro l
  induction l with
  | nil => intro s _ v hv; simp [mkUnitsFrom] at hv
  | cons cd rest ih =>
    intro s hpos v hv
    simp only [mkUnitsFrom, List.mem_append] at hv
    rcases hv with hv | hv
    · have := List.eq_of_mem_replicate hv
      subst this
      exact hpos cd (by simp)
    · exact ih (s + 1) (fun c hc => hpos c (by simp [hc])) v hv

/-- Every sublist of the unit expansion corresponds to a capped count vector
with the same count, bucket sum and cost. -/
theorem sublist_mkUnitsFrom_to_ks (K vbMax : Nat) :
    ∀ (l : List Candidate) (s : Nat) (S : List UnitItem),
      S.Sublist (mkUnitsFrom K vbMax s l) →
      ∃ ks : Nat → Nat,
        (∀ k, k < l.length → ks (s + k) ≤ capClamp K (l.getD k dCand)) ∧
        S.length = ∑ k in Finset.range l.length, ks (s + k) ∧
        uVb S = ∑ k in Finset.range l.length,
          ks (s + k) * vbOf vbMax (l.getD k dCand).value ∧
        uCost S = ∑ k in Finset.range l.length,
          (ks (s + k) : Int) * (l.getD k dCand).cost := by
  intro l
  induction l with
  | nil =>
    intro s S hS
    have : S = [] := List.sublist_nil.mp hS
    subst this
    exact ⟨fun _ => 0, fun k hk => by simp at hk, by simp, by simp [uVb], by simp [uCost]⟩
  | cons cd rest ih =>
    intro s S hS
    simp only [mkUnitsFrom] at hS
    rcases List.sublist_append_iff.mp hS with ⟨S₁, S₂, rfl, hS₁, hS₂⟩
    rcases List.sublist_replicate_iff.mp hS₁ with ⟨m, hm, rfl⟩
    obtain ⟨ks', hcap', hlen', hvb', hcost'⟩ := ih (s + 1) S₂ hS₂
    refine ⟨Function.update ks' s m, ?_, ?_, ?_, ?_⟩
    · intro k hk
      match k with
      | 0 =>
        rw [Nat.add_zero, Function.update_same]
        simpa using hm
      | k + 1 =>
        rw [Function.update_apply, if_neg (by omega)]
        have := hcap' k (by simpa using hk)
        simpa [Nat.add_assoc, Nat.add_comm 1 k] using this
    · rw [List.length_append, List.length_replicate, hlen', List.length_cons,
        Finset.sum_range_succ' (fun k => Function.update ks' s m (s + k)) rest.length]
      simp only [Nat.add_zero, Function.update_same]
      have hc : ∀ k ∈ Finset.range rest.length,
          Function.update ks' s m (s + (k + 1)) = ks' (s + 1 + k) := by
        intro k _
        rw [show s + (k + 1) = s + 1 + k from by omega, Function.update_apply,
          if_neg (by omega)]
      rw [Finset.sum_congr rfl hc]
      omega
    · rw [uVb_append, uVb_replicate, hvb', List.length_cons,
        Finset.sum_range_succ' (fun k =>
          Function.update ks' s m (s + k) * vbOf vbMax ((cd :: rest).getD k dCand).value)
          rest.length]
      simp only [Nat.add_zero, Function.update_same]
      have hc : ∀ k ∈ Finset.range rest.length,
          Function.update ks' s m (s + (k + 1)) *
              vbOf vbMax ((cd :: rest).getD (k + 1) dCand).value =
            ks' (s + 1 + k) * vbOf vbMax (rest.getD k dCand).value := by
        intro k _
        rw [show s + (k + 1) = s + 1 + k from by omega, Function.update_apply,
          if_neg (by omega), List.getD_cons_succ]
      rw [Finset.sum_congr rfl hc]
      simp only [List.getD_cons_zero]
      omega
    · rw [uCost_append, uCost_replicate, hcost', List.length_cons,
        Finset.sum_range_succ' (fun k =>
          ((Function.update ks' s m (s + k) : Nat) : Int) * ((cd :: rest).getD k dCand).cost)
          rest.length]
      simp only [Nat.add_zero, Function.update_same]
      have hc : ∀ k ∈ Finset.range rest.length,
          ((Function.update ks' s m (s + (k + 1)) : Nat) : Int) *
              ((cd :: rest).getD (k + 1) dCand).cost =
            ((ks' (s + 1 + k) : Nat) : Int) * (rest.getD k dCand).cost := by
        intro k _
        rw [show s + (k + 1) = s + 1 + k from by omega, Function.update_apply,
          if_neg (by omega), List.getD_cons_succ]
      rw [Finset.sum_congr rfl hc]
      simp only [List.getD_cons_zero]
      ring

/-- Every capped count vector is realizable as a sublist of the unit
expansion with the same count, bucket sum and cost. -/
theorem ks_to_sublist_mkUnitsFrom (K vbMax : Nat) :
    ∀ (l : List Candidate) (s : Nat) (ks : Nat → Nat),
      (∀ k, k < l.length → ks (s + k) ≤ capClamp K (l.getD k dCand)) →
      ∃ S : List UnitItem,
        S.Sublist (mkUnitsFrom K vbMax s l) ∧
        S.length = ∑ k in Finset.range l.length, ks (s + k) ∧
        uVb S = ∑ k in Finset.range l.length,
          ks (s + k) * vbOf vbMax (l.getD k dCand).value ∧
        uCost S = ∑ k in Finset.range l.length,
          (ks (s + k) : Int) * (l.getD k dCand).cost := by
  intro l
  induction l with
  | nil =>
    intro s ks _
    exact ⟨[], List.Sublist.refl [], by simp, by simp [uVb], by simp [uCost]⟩
  | cons cd rest ih =>
    intro s ks hcap
    obtain ⟨S', hS', hlen', hvb', hcost'⟩ := ih (s + 1) ks (by
      intro k hk
      have := hcap (k + 1) (by simpa using hk)
      simpa [Nat.add_assoc, Nat.add_comm 1 k] using this)
    refine ⟨List.replicate (ks s) ⟨s, vbOf vbMax cd.value, cd.cost⟩ ++ S', ?_, ?_, ?_, ?_⟩
    · show List.Sublist _ (mkUnitsFrom K vbMax s (cd :: rest))
      refine List.Sublist.append ?_ hS'
      rw [List.replicate_sublist_replicate]
      simpa using hcap 0 (by simp)
    · rw [List.length_append, List.length_replicate, hlen', List.length_cons,
        Finset.sum_range_succ' (fun k => ks (s + k)) rest.length]
      have hc : ∀ k ∈ Finset.range rest.length, ks (s + (k + 1)) = ks (s + 1 + k) := by
        intro k _
        rw [show s + (k + 1) = s + 1 + k from by omega]
      rw [Finset.sum_congr rfl hc]
      simp only [Nat.add_zero]
      omega
    · rw [uVb_append, uVb_replicate, hvb', List.length_cons,
        Finset.sum_range_succ'
          (fun k => ks (s + k) * vbOf vbMax ((cd :: rest).getD k dCand).value) rest.length]
      have hc : ∀ k ∈ Finset.range rest.length,
          ks (s + (k + 1)) * vbOf vbMax ((cd :: rest).getD (k + 1) dCand).value =
            ks (s + 1 + k) * vbOf vbMax (rest.getD k dCand).value := by
        intro k _
        rw [show s + (k + 1) = s + 1 + k from by omega, List.getD_cons_succ]
      rw [Finset.sum_congr rfl hc]
      simp only [List.getD_cons_zero, Nat.add_zero]
      omega
    · rw [uCost_append, uCost_replicate, hcost', List.length_cons,
        Finset.sum_range_succ'
          (fun k => ((ks (s + k) : Nat) : Int) * ((cd :: rest).getD k dCand).cost)
          rest.length]
      have hc : ∀ k ∈ Finset.range rest.length,
          ((ks (s + (k + 1)) : Nat) : Int) * ((cd :: rest).getD (k + 1) dCand).cost =
            ((ks (s + 1 + k) : Nat) : Int) * (rest.getD k dCand).cost := by
        intro k _
        rw [show s + (k + 1) = s + 1 + k from by omega, List.getD_cons_succ]
      rw [Finset.sum_congr rfl hc]
      simp only [List.getD_cons_zero, Nat.add_zero]
      ring

/-- Specialization to the full unit list: sublists of `mkUnits` are exactly
the capped count vectors, with matching statistics. -/
theorem sublist_mkUnits_to_ks {K vbMax : Nat} {cands : List Candidate}
    {S : List UnitItem} (hS : S.Sublist (mkUnits K vbMax cands)) :
    ∃ ks : Nat → Nat,
      (∀ k, k < cands.length → ks k ≤ capClamp K (cands.getD k dCand)) ∧
      ksTotal cands.length ks = S.length ∧
      ksVbSum vbMax cands ks = uVb S ∧ ksCost cands ks = uCost S := by
  obtain ⟨ks, hcap, hlen, hvb, hcost⟩ := sublist_mkUnitsFrom_to_ks K vbMax cands 0 S hS
  refine ⟨ks, by simpa using hcap, ?_, ?_, ?_⟩
  · rw [ksTotal, hlen]
    exact Finset.sum_congr rfl fun k _ => by rw [Nat.zero_add]
  · rw [ksVbSum, hvb]
    exact (Finset.sum_congr rfl fun k _ => by rw [Nat.zero_add]).symm
  · rw [ksCost, hcost]
    exact (Finset.sum_congr rfl fun k _ => by rw [Nat.zero_add]).symm

theorem ks_to_sublist_mkUnits {K vbMax : Nat} {cands : List Candidate} {ks : Nat → Nat}
    (hcap : ∀ k, k < cands.length → ks k ≤ capClamp K (cands.getD k dCand)) :
    ∃ S : List UnitItem, S.Sublist (mkUnits K vbMax cands) ∧
      S.length = ksTotal cands.length ks ∧
      uVb S = ksVbSum vbMax cands ks ∧ uCost S = ksCost cands ks := by
  obtain ⟨S, hS, hlen, hvb, hcost⟩ :=
    ks_to_sublist_mkUnitsFrom K vbMax cands 0 ks (by simpa using hcap)
  refine ⟨S, hS, ?_, ?_, ?_⟩
  · rw [ksTotal, hlen]
    exact (Finset.sum_congr rfl fun k _ => by rw [Nat.zero_add]).symm
  · rw [ksVbSum, hvb]
    exact Finset.sum_congr rfl fun k _ => by rw [Nat.zero_add]
  · rw [ksCost, hcost]
    exact Finset.sum_congr rfl fun k _ => by rw [Nat.zero_add]

/-! ### The feasible-cost set and its invariance under candidate permutation -/

/-- Achievability of the triple (count, bucket sum, cost) by a count vector
respecting the regime caps. -/
def AchT (isPve : Bool) (K vbMax : Nat) (l : List Candidate) (t v : Nat) (m : Int) : Prop :=
  ∃ ks : Nat → Nat,
    (∀ k, k < l.length → ks k ≤ regimeCap isPve K (l.getD k dCand)) ∧
    ksTotal l.length ks = t ∧ ksVbSum vbMax l ks = v ∧ ksCost l ks = m

/-- The set of total costs of feasible selections: multisets of size `1..K`
respecting the regime caps whose clamped bucket sum lies in the window
`thresholdBucket..maxBucket`. -/
def FeasCostSet (isPve : Bool) (l : List Candidate) (K tb vbMax : Nat) : Set Int :=
  {m | ∃ t v, 1 ≤ t ∧ t ≤ K ∧ tb ≤ v ∧ v ≤ vbMax ∧ AchT isPve K vbMax l t v m}

/-- Prepend a head count to a count vector. -/
def kcons (k₀ : Nat) (ks : Nat → Nat) : Nat → Nat
  | 0 => k₀
  | i + 1 => ks i

theorem ksTotal_kcons (n k₀ : Nat) (ks : Nat → Nat) :
    ksTotal (n + 1) (kcons k₀ ks) = k₀ + ksTotal n ks := by
  rw [ksTotal, ksTotal, Finset.sum_range_succ' (kcons k₀ ks) n]
  simp only [kcons]
  omega

theorem ksVbSum_kcons (vbMax : Nat) (d : Candidate) (l : List Candidate)
    (k₀ : Nat) (ks : Nat → Nat) :
    ksVbSum vbMax (d :: l) (kcons k₀ ks) =
      k₀ * vbOf vbMax d.value + ksVbSum vbMax l ks := by
  rw [ksVbSum, ksVbSum, List.length_cons,
    Finset.sum_range_succ'
      (fun k => kcons k₀ ks k * vbOf vbMax ((d :: l).getD k dCand).value) l.length]
  simp only [kcons, List.getD_cons_succ, List.getD_cons_zero]
  omega

theorem ksCost_kcons (d : Candidate) (l : List Candidate) (k₀ : Nat) (ks : Nat → Nat) :
    ksCost (d :: l) (kcons k₀ ks) = (k₀ : Int) * d.cost + ksCost l ks := by
  rw [ksCost, ksCost, List.length_cons,
    Finset.sum_range_succ'
      (fun k => ((kcons k₀ ks k : Nat) : Int) * ((d :: l).getD k dCand).cost) l.length]
  simp only [kcons, List.getD_cons_succ, List.getD_cons_zero]
  ring

theorem AchT_cons {isPve : Bool} {K vbMax : Nat} {d : Candidate} {l : List Candidate}
    {t v : Nat} {m : Int} :
    AchT isPve K vbMax (d :: l) t v m ↔
      ∃ (k₀ t' v' : Nat) (m' : Int), k₀ ≤ regimeCap isPve K d ∧
        AchT isPve K vbMax l t' v' m' ∧
        t = k₀ + t' ∧ v = k₀ * vbOf vbMax d.value + v' ∧ m = (k₀ : Int) * d.cost + m' := by
  constructor
  · rintro ⟨ks, hcap, rfl, rfl, rfl⟩
    refine ⟨ks 0, ksTotal l.length (fun i => ks (i + 1)),
      ksVbSum vbMax l (fun i => ks (i + 1)), ksCost l (fun i => ks (i + 1)),
      by simpa using hcap 0 (by simp), ⟨fun i => ks (i + 1), ?_, rfl, rfl, rfl⟩, ?_, ?_, ?_⟩
    · intro k hk
      have := hcap (k + 1) (by simpa using hk)
      simpa using this
    · rw [ksTotal, ksTotal, List.length_cons, Finset.sum_range_succ' ks l.length]
      omega
    · rw [ksVbSum, ksVbSum, List.length_cons,
        Finset.sum_range_succ'
          (fun k => ks k * vbOf vbMax ((d :: l).getD k dCand).value) l.length]
      simp only [List.getD_cons_succ, List.getD_cons_zero]
      omega
    · rw [ksCost, ksCost, List.length_cons,
        Finset.sum_range_succ'
          (fun k => ((ks k : Nat) : Int) * ((d :: l).getD k dCand).cost) l.length]
      simp only [List.getD_cons_succ, List.getD_cons_zero]
      ring
  · rintro ⟨k₀, t', v', m', hk₀, ⟨ks', hcap', rfl, rfl, rfl⟩, rfl, rfl, rfl⟩
    refine ⟨kcons k₀ ks', ?_, ?_, ?_, ?_⟩
    · intro k hk
      match k with
      | 0 => simpa [kcons] using hk₀
      | k + 1 =>
        have := hcap' k (by simpa using hk)
        simpa [kcons] using this
    · rw [List.length_cons, ksTotal_kcons]
    · rw [ksVbSum_kcons]
    · rw [ksCost_kcons]

/-- Achievable triples are invariant under permutation of the candidates. -/
theorem AchT_perm (isPve : Bool) (K vbMax : Nat) {l₁ l₂ : List Candidate}
    (h : l₁.Perm l₂) :
    ∀ t v m, AchT isPve K vbMax l₁ t v m ↔ AchT isPve K vbMax l₂ t v m := by
  induction h with
  | nil => intro t v m; exact Iff.rfl
  | cons d h ih =>
    intro t v m
    rw [AchT_cons, AchT_cons]
    constructor
    · rintro ⟨k₀, t', v', m', hk, hach, rfl, rfl, rfl⟩
      exact ⟨k₀, t', v', m', hk, (ih t' v' m').mp hach, rfl, rfl, rfl⟩
    · rintro ⟨k₀, t', v', m', hk, hach, rfl, rfl, rfl⟩
      exact ⟨k₀, t', v', m', hk, (ih t' v' m').mpr hach, rfl, rfl, rfl⟩
  | swap x y l =>
    intro t v m
    constructor
    · intro h
      rw [AchT_cons] at h
      obtain ⟨k₀, t', v', m', hk, h', rfl, rfl, rfl⟩ := h
      rw [AchT_cons] at h'
      obtain ⟨k₁, t'', v'', m'', hk1, hach, rfl, rfl, rfl⟩ := h'
      rw [AchT_cons]
      exact ⟨k₁, k₀ + t'', k₀ * vbOf vbMax y.value + v'', (k₀ : Int) * y.cost + m'', hk1,
        AchT_cons.mpr ⟨k₀, t'', v'', m'', hk, hach, rfl, rfl, rfl⟩,
        by omega, by omega, by ring⟩
    · intro h
      rw [AchT_cons] at h
      obtain ⟨k₀, t', v', m', hk, h', rfl, rfl, rfl⟩ := h
      rw [AchT_cons] at h'
      obtain ⟨k₁, t'', v'', m'', hk1, hach, rfl, rfl, rfl⟩ := h'
      rw [AchT_cons]
      exact ⟨k₁, k₀ + t'', k₀ * vbOf vbMax x.value + v'', (k₀ : Int) * x.cost + m'', hk1,
        AchT_cons.mpr ⟨k₀, t'', v'', m'', hk, hach, rfl, rfl, rfl⟩,
        by omega, by omega, by ring⟩
  | trans h1 h2 ih1 ih2 =>
    intro t v m
    exact (ih1 t v m).trans (ih2 t v m)

/-- The feasible-cost set is invariant under permutation of the candidates. -/
theorem FeasCostSet_perm (isPve : Bool) {l₁ l₂ : List Candidate} (h : l₁.Perm l₂)
    (K tb vbMax : Nat) :
    FeasCostSet isPve l₁ K tb vbMax = FeasCostSet isPve l₂ K tb vbMax := by
  ext m
  unfold FeasCostSet
  constructor
  · rintro ⟨t, v, h1, h2, h3, h4, hach⟩
    exact ⟨t, v, h1, h2, h3, h4, (AchT_perm isPve K vbMax h t v m).mp hach⟩
  · rintro ⟨t, v, h1, h2, h3, h4, hach⟩
    exact ⟨t, v, h1, h2, h3, h4, (AchT_perm isPve K vbMax h t v m).mpr hach⟩

/-! ### Per-regime optimality of the chosen cell -/

theorem tripLe_cost {a b : Int × Nat × Nat} (h : tripLe a b) : a.1 ≤ b.1 := by
  unfold tripLe at h
  rcases h with h | ⟨e, _⟩
  · omega
  · omega

theorem ks_le_total (n : Nat) (ks : Nat → Nat) (k : Nat) (hk : k < n) :
    ks k ≤ ksTotal n ks :=
  Finset.single_le_sum (fun _ _ => Nat.zero_le _) (Finset.mem_range.mpr hk)

/-- Every prepared candidate has positive value and cost. -/
theorem buildCandidates_pos (sm : String) (maxItems : Int) (items : List RawItem) :
    ∀ cd ∈ buildCandidates sm maxItems items, 0 < cd.value ∧ 0 < cd.cost := by
  intro cd hcd
  rw [buildCandidates, List.mem_filterMap] at hcd
  obtain ⟨it, _, hit⟩ := hcd
  by_cases hsm : sm = "pve"
  · rw [if_pos hsm] at hit
    unfold pveCandidate at hit
    split at hit
    · simp at hit
    · rename_i v hbp
      split at hit
      · simp at hit
      · rename_i hv
        split at hit
        · simp at hit
        · rename_i c hpp
          split at hit
          · simp at hit
          · rename_i hc
            simp only [Option.some.injEq] at hit
            subst hit
            exact ⟨by show (0 : Int) < v; omega, by show (0 : Int) < c; omega⟩
  · rw [if_neg hsm] at hit
    unfold pvpCandidate at hit
    split at hit
    · simp at hit
    · rename_i v hbp
      split at hit
      · simp at hit
      · rename_i hv
        split at hit
        · simp at hit
        · rename_i c hpp
          split at hit
          · simp at hit
          · rename_i hc
            simp only [Option.some.injEq] at hit
            subst hit
            exact ⟨by show (0 : Int) < v; omega, by show (0 : Int) < c; omega⟩

theorem solvePve_ok_iff {sm : String} {cands : List Candidate} {threshold : Nat}
    {maxItems : Int} {r : SelectionResult} :
    solvePve sm cands threshold maxItems = .ok r ↔
      ∃ best, pickBest (pveOptions cands threshold maxItems) = some best ∧
        r = aggregate sm cands best.1
          (walkTab (pveDP (vbMaxOf threshold) cands) best.2.1 best.2.2) := by
  rcases h : pickBest (pveOptions cands threshold maxItems) with _ | best
  · simp [solvePve, h]
  · simp only [solvePve, h, Except.ok.injEq, Option.some.injEq]
    constructor
    · intro he; exact ⟨best, rfl, he.symm⟩
    · rintro ⟨b, hb, rfl⟩
      obtain rfl := hb
      rfl

theorem solvePve_err_iff {sm : String} {cands : List Candidate} {threshold : Nat}
    {maxItems : Int} :
    solvePve sm cands threshold maxItems = .error .noFeasibleSelection ↔
      pveOptions cands threshold maxItems = [] := by
  rcases h : pickBest (pveOptions cands threshold maxItems) with _ | best
  · simp only [solvePve, h]
    simpa using pickBest_eq_none.mp h
  · simp only [solvePve, h]
    constructor
    · intro hc; exact absurd hc (by simp)
    · intro hc
      rw [hc] at h
      simp [pickBest] at h

theorem solvePvp_ok_iff {sm : String} {cands : List Candidate} {threshold : Nat}
    {maxItems : Int} {r : SelectionResult} :
    solvePvp sm cands threshold maxItems = .ok r ↔
      ∃ best, pickBest (pvpOptions cands threshold maxItems) = some best ∧
        r = aggregate sm cands best.1
          ((walkTab (pvpDP (Kof maxItems) (vbMaxOf threshold)
              (mkUnits (Kof maxItems) (vbMaxOf threshold) cands)) best.2.1 best.2.2).map
            fun j => ((mkUnits (Kof maxItems) (vbMaxOf threshold) cands).getD j
              dUnit).idx) := by
  rcases h : pickBest (pvpOptions cands threshold maxItems) with _ | best
  · simp [solvePvp, h]
  · simp only [solvePvp, h, Except.ok.injEq, Option.some.injEq]
    constructor
    · intro he; exact ⟨best, rfl, he.symm⟩
    · rintro ⟨b, hb, rfl⟩
      obtain rfl := hb
      rfl

theorem solvePvp_err_iff {sm : String} {cands : List Candidate} {threshold : Nat}
    {maxItems : Int} :
    solvePvp sm cands threshold maxItems = .error .noFeasibleSelection ↔
      pvpOptions cands threshold maxItems = [] := by
  rcases h : pickBest (pvpOptions cands threshold maxItems) with _ | best
  · simp only [solvePvp, h]
    simpa using pickBest_eq_none.mp h
  · simp only [solvePvp, h]
    constructor
    · intro hc; exact absurd hc (by simp)
    · intro hc
      rw [hc] at h
      simp [pickBest] at h

/-- PvE: the chosen option's cost is the least feasible cost. -/
theorem pve_best_isLeast {cands : List Candidate} {threshold : Nat} {maxItems : Int}
    (hpos : ∀ cd ∈ cands, 0 < cd.cost) {best : Int × Nat × Nat}
    (hb : pickBest (pveOptions cands threshold maxItems) = some best) :
    IsLeast (FeasCostSet true cands (Kof maxItems) (tbOf threshold) (vbMaxOf threshold))
      best.1 := by
  have hmem := pickBest_mem hb
  obtain ⟨m0, c0, v0⟩ := best
  rw [pveOptions, mem_optionsOf] at hmem
  obtain ⟨h1, h2, h3, h4, h5, rfl⟩ := hmem
  constructor
  · obtain ⟨ks, ht, hv, hc⟩ := pveDP_sound (vbMaxOf threshold) cands c0 v0 h5
    refine ⟨c0, v0, h1, h2, h3, h4, ks, ?_, ht, hv, hc⟩
    intro k hk
    have := ks_le_total cands.length ks k hk
    rw [ht] at this
    have hrc : regimeCap true (Kof maxItems) (cands.getD k dCand) = Kof maxItems := by
      simp [regimeCap]
    rw [hrc]
    omega
  · rintro m ⟨t, v, ht1, ht2, hv1, hv2, ks, hcap, htot, hvb, hcost⟩
    by_cases hmlt : m < INF
    · have hmin := pveDP_min (vbMaxOf threshold) cands hpos t v ks htot hvb
        (by rw [hcost]; exact hmlt)
      rw [hcost] at hmin
      have hcell : (pveDP (vbMaxOf threshold) cands t v).1 < INF := by omega
      have hopt : ((pveDP (vbMaxOf threshold) cands t v).1, t, v) ∈
          pveOptions cands threshold maxItems := by
        rw [pveOptions, mem_optionsOf]
        exact ⟨ht1, ht2, hv1, hv2, hcell, rfl⟩
      have hle := tripLe_cost (pickBest_le hb _ hopt)
      simp only at hle
      omega
    · simp only
      omega

/-- PvE: any feasible selection below the sentinel makes the solve succeed. -/
theorem pve_feasible_success {cands : List Candidate} {threshold : Nat} {maxItems : Int}
    (hpos : ∀ cd ∈ cands, 0 < cd.cost) {m : Int}
    (hm : m ∈ FeasCostSet true cands (Kof maxItems) (tbOf threshold) (vbMaxOf threshold))
    (hmINF : m < INF) :
    pveOptions cands threshold maxItems ≠ [] := by
  obtain ⟨t, v, ht1, ht2, hv1, hv2, ks, hcap, htot, hvb, hcost⟩ := hm
  have hmin := pveDP_min (vbMaxOf threshold) cands hpos t v ks htot hvb
    (by rw [hcost]; exact hmINF)
  rw [hcost] at hmin
  have hcell : (pveDP (vbMaxOf threshold) cands t v).1 < INF := by omega
  have hopt : ((pveDP (vbMaxOf threshold) cands t v).1, t, v) ∈
      pveOptions cands threshold maxItems := by
    rw [pveOptions, mem_optionsOf]
    exact ⟨ht1, ht2, hv1, hv2, hcell, rfl⟩
  intro hnil
  rw [hnil] at hopt
  simp at hopt

/-- PvP: the chosen option's cost is the least feasible cost. -/
theorem pvp_best_isLeast {cands : List Candidate} {threshold : Nat} {maxItems : Int}
    (hpos : ∀ cd ∈ cands, 0 < cd.cost) {best : Int × Nat × Nat}
    (hb : pickBest (pvpOptions cands threshold maxItems) = some best) :
    IsLeast (FeasCostSet false cands (Kof maxItems) (tbOf threshold) (vbMaxOf threshold))
      best.1 := by
  have hupos : ∀ v ∈ mkUnits (Kof maxItems) (vbMaxOf threshold) cands, 0 < v.cost :=
    mkUnitsFrom_cost_pos (Kof maxItems) (vbMaxOf threshold) cands 0 hpos
  obtain ⟨hval, hptr⟩ := pvpDP_inv (Kof maxItems) (vbMaxOf threshold)
    (mkUnits (Kof maxItems) (vbMaxOf threshold) cands) hupos
  have hmem := pickBest_mem hb
  obtain ⟨m0, c0, v0⟩ := best
  rw [pvpOptions, mem_optionsOf] at hmem
  obtain ⟨h1, h2, h3, h4, h5, rfl⟩ := hmem
  constructor
  · obtain ⟨S, hS, hlen, hvb, hcost⟩ := (hval c0 v0 h2 h4).1 h5
    obtain ⟨ks, hcap, ht, hv, hc⟩ := sublist_mkUnits_to_ks hS
    refine ⟨c0, v0, h1, h2, h3, h4, ks, ?_, by omega, by omega, by omega⟩
    intro k hk
    have hrc : regimeCap false (Kof maxItems) (cands.getD k dCand) =
        capClamp (Kof maxItems) (cands.getD k dCand) := by
      simp [regimeCap]
    rw [hrc]
    exact hcap k hk
  · rintro m ⟨t, v, ht1, ht2, hv1, hv2, ks, hcap, htot, hvb, hcost⟩
    by_cases hmlt : m < INF
    · obtain ⟨S, hS, hlen, hv', hc'⟩ := @ks_to_sublist_mkUnits (Kof maxItems)
        (vbMaxOf threshold) cands ks (by
          intro k hk
          have := hcap k hk
          simpa [regimeCap] using this)
      have hmin := (hval t v (by omega) (by omega)).2 S hS (by omega) (by omega)
        (by omega)
      have hcell : (pvpDP (Kof maxItems) (vbMaxOf threshold)
          (mkUnits (Kof maxItems) (vbMaxOf threshold) cands) t v).1 < INF := by omega
      have hopt : ((pvpDP (Kof maxItems) (vbMaxOf threshold)
          (mkUnits (Kof maxItems) (vbMaxOf threshold) cands) t v).1, t, v) ∈
          pvpOptions cands threshold maxItems := by
        rw [pvpOptions, mem_optionsOf]
        exact ⟨ht1, ht2, hv1, hv2, hcell, rfl⟩
      have hle := tripLe_cost (pickBest_le hb _ hopt)
      simp only at hle
      omega
    · simp only
      omega

/-- PvP: any feasible selection below the sentinel makes the solve succeed. -/
theorem pvp_feasible_success {cands : List Candidate} {threshold : Nat} {maxItems : Int}
    (hpos : ∀ cd ∈ cands, 0 < cd.cost) {m : Int}
    (hm : m ∈ FeasCostSet false cands (Kof maxItems) (tbOf threshold) (vbMaxOf threshold))
    (hmINF : m < INF) :
    pvpOptions cands threshold maxItems ≠ [] := by
  have hupos : ∀ v ∈ mkUnits (Kof maxItems) (vbMaxOf threshold) cands, 0 < v.cost :=
    mkUnitsFrom_cost_pos (Kof maxItems) (vbMaxOf threshold) cands 0 hpos
  obtain ⟨hval, _⟩ := pvpDP_inv (Kof maxItems) (vbMaxOf threshold)
    (mkUnits (Kof maxItems) (vbMaxOf threshold) cands) hupos
  obtain ⟨t, v, ht1, ht2, hv1, hv2, ks, hcap, htot, hvb, hcost⟩ := hm
  obtain ⟨S, hS, hlen, hv', hc'⟩ := @ks_to_sublist_mkUnits (Kof maxItems)
    (vbMaxOf threshold) cands ks (by
      intro k hk
      have := hcap k hk
      simpa [regimeCap] using this)
  have hmin := (hval t v (by omega) (by omega)).2 S hS (by omega) (by omega) (by omega)
  have hcell : (pvpDP (Kof maxItems) (vbMaxOf threshold)
      (mkUnits (Kof maxItems) (vbMaxOf threshold) cands) t v).1 < INF := by omega
  have hopt : ((pvpDP (Kof maxItems) (vbMaxOf threshold)
      (mkUnits (Kof maxItems) (vbMaxOf threshold) cands) t v).1, t, v) ∈
      pvpOptions cands threshold maxItems := by
    rw [pvpOptions, mem_optionsOf]
    exact ⟨ht1, ht2, hv1, hv2, hcell, rfl⟩
  intro hnil
  rw [hnil] at hopt
  simp at hopt

/-! ### Assembly helpers -/

/-- The candidate list actually fed to the DP: shuffled only when requested. -/
def shuffledCandidates (its : List RawItem) (maxItems : Int) (mode : Option String)
    (randomize : Bool) (shuffle : List Candidate → List Candidate) : List Candidate :=
  if randomize then shuffle (buildCandidates (modeOf mode) maxItems its)
  else buildCandidates (modeOf mode) maxItems its

/-- The cost table of the run, per regime. -/
def runDPCost (its : List RawItem) (threshold : Nat) (maxItems : Int) (mode : Option String)
    (randomize : Bool) (shuffle : List Candidate → List Candidate) : Nat → Nat → Int :=
  if modeOf mode = "pve" then
    fun c vb => (pveDP (vbMaxOf threshold)
      (shuffledCandidates its maxItems mode randomize shuffle) c vb).1
  else
    fun c vb => (pvpDP (Kof maxItems) (vbMaxOf threshold)
      (mkUnits (Kof maxItems) (vbMaxOf threshold)
        (shuffledCandidates its maxItems mode randomize shuffle)) c vb).1

theorem compute_some_unfold (its : List RawItem) (threshold : Nat) (maxItems : Int)
    (mode : Option String) (randomize : Bool) (shuffle : List Candidate → List Candidate) :
    compute_cultist_selection (some its) threshold maxItems mode randomize shuffle =
      if (buildCandidates (modeOf mode) maxItems its).isEmpty then
        .error .noValidCandidates
      else if modeOf mode = "pve" then
        solvePve (modeOf mode) (shuffledCandidates its maxItems mode randomize shuffle)
          threshold maxItems
      else
        solvePvp (modeOf mode) (shuffledCandidates its maxItems mode randomize shuffle)
          threshold maxItems := rfl

theorem optionsOf_eq_nil_iff {K tb vbMax : Nat} {dp : Nat → Nat → Int} :
    optionsOf K tb vbMax dp = [] ↔
      ∀ c vb, 1 ≤ c → c ≤ K → tb ≤ vb → vb ≤ vbMax → ¬ dp c vb < INF := by
  constructor
  · intro hnil c vb h1 h2 h3 h4 hlt
    have : (dp c vb, c, vb) ∈ optionsOf K tb vbMax dp :=
      mem_optionsOf.mpr ⟨h1, h2, h3, h4, hlt, rfl⟩
    rw [hnil] at this
    simp at this
  · intro hall
    by_contra hne
    obtain ⟨t, ht⟩ := List.exists_mem_of_ne_nil _ hne
    obtain ⟨m, c, v⟩ := t
    obtain ⟨h1, h2, h3, h4, h5, _⟩ := mem_optionsOf.mp ht
    exact hall c v h1 h2 h3 h4 h5

theorem Kof_pos (maxItems : Int) : 1 ≤ Kof maxItems := by
  unfold Kof
  omega

theorem capClamp_pos (K : Nat) (c : Candidate) : 1 ≤ capClamp K c := by
  unfold capClamp
  omega

/-- Per-item lower bound: an item's value is within one step of its clamped
bucket scaled back up. -/
theorem value_bucket_lower (vbMax : Nat) (v : Int) (hv : 0 < v) :
    (STEP : Int) * (vbOf vbMax v : Nat) - ((STEP : Int) - 1) ≤ v := by
  unfold vbOf STEP
  have h1 : (v.toNat + 499) / 500 * 500 ≤ v.toNat + 499 := Nat.div_mul_le_self _ _
  have h2 : min ((v.toNat + 499) / 500) vbMax ≤ (v.toNat + 499) / 500 := Nat.min_le_left _ _
  have h3 : v.toNat = v := Int.toNat_of_nonneg (by omega)
  omega

/-- Summed lower bound for a walked selection. -/
theorem walk_value_lower (vbMax : Nat) (cands : List Candidate)
    (hvalpos : ∀ cd ∈ cands, 0 < cd.value) :
    ∀ w : List Nat, (∀ j ∈ w, j < cands.length) →
      (STEP : Int) * ((w.map (fun j => vbOf vbMax (cands.getD j dCand).value)).sum : Nat) -
          ((STEP : Int) - 1) * w.length ≤
        (w.map (fun j => (cands.getD j dCand).value)).sum := by
  intro w
  induction w with
  | nil => simp
  | cons j w ih =>
    intro hmem
    have hj : j < cands.length := hmem j (by simp)
    have hjv : 0 < (cands.getD j dCand).value := by
      apply hvalpos
      rw [List.getD_eq_getElem cands dCand hj]
      exact List.getElem_mem hj
    have h1 := value_bucket_lower vbMax (cands.getD j dCand).value hjv
    have h2 := ih (fun k hk => hmem k (by simp [hk]))
    simp only [List.map_cons, List.sum_cons, List.length_cons]
    push_cast
    push_cast at h1 h2
    nlinarith [h1, h2]

/-- Every unit of the expansion carries its candidate's clamped bucket and
cost, and a valid candidate index. -/
theorem mkUnitsFrom_wf (K vbMax : Nat) :
    ∀ (l : List Candidate) (s : Nat), ∀ u ∈ mkUnitsFrom K vbMax s l,
      ∃ k, k < l.length ∧ u = ⟨s + k, vbOf vbMax (l.getD k dCand).value,
        (l.getD k dCand).cost⟩ := by
  intro l
  induction l with
  | nil => intro s u hu; simp [mkUnitsFrom] at hu
  | cons cd rest ih =>
    intro s u hu
    simp only [mkUnitsFrom, List.mem_append] at hu
    rcases hu with hu | hu
    · have := List.eq_of_mem_replicate hu
      refine ⟨0, ⟨by simp, ?_⟩⟩
      simpa using this
    · obtain ⟨k, hk, rfl⟩ := ih (s + 1) u hu
      refine ⟨k + 1, ⟨by simpa using hk, ?_⟩⟩
      simp only [List.getD_cons_succ]
      congr 1
      omega

theorem mkUnits_wf {K vbMax : Nat} {cands : List Candidate} :
    ∀ u ∈ mkUnits K vbMax cands,
      u.idx < cands.length ∧
      u.vb = vbOf vbMax (cands.getD u.idx dCand).value ∧
      u.cost = (cands.getD u.idx dCand).cost := by
  intro u hu
  obtain ⟨k, hk, rfl⟩ := mkUnitsFrom_wf K vbMax cands 0 u hu
  exact ⟨by simpa using hk, by simp, by simp⟩

theorem mkUnits_getD_wf {K vbMax : Nat} {cands : List Candidate} {j : Nat}
    (hj : j < (mkUnits K vbMax cands).length) :
    ((mkUnits K vbMax cands).getD j dUnit).idx < cands.length ∧
    ((mkUnits K vbMax cands).getD j dUnit).vb =
      vbOf vbMax (cands.getD ((mkUnits K vbMax cands).getD j dUnit).idx dCand).value ∧
    ((mkUnits K vbMax cands).getD j dUnit).cost =
      (cands.getD ((mkUnits K vbMax cands).getD j dUnit).idx dCand).cost := by
  apply mkUnits_wf
  rw [List.getD_eq_getElem _ dUnit hj]
  exact List.getElem_mem hj

/-- A solve returns either a result or `NoFeasibleSelection`. -/
theorem solvePve_shape (sm : String) (cands : List Candidate) (threshold : Nat)
    (maxItems : Int) :
    (∃ r, solvePve sm cands threshold maxItems = .ok r) ∨
      solvePve sm cands threshold maxItems = .error .noFeasibleSelection := by
  rcases h : pickBest (pveOptions cands threshold maxItems) with _ | best
  · right; simp [solvePve, h]
  · left; exact ⟨_, solvePve_ok_iff.mpr ⟨best, h, rfl⟩⟩

theorem solvePvp_shape (sm : String) (cands : List Candidate) (threshold : Nat)
    (maxItems : Int) :
    (∃ r, solvePvp sm cands threshold maxItems = .ok r) ∨
      solvePvp sm cands threshold maxItems = .error .noFeasibleSelection := by
  rcases h : pickBest (pvpOptions cands threshold maxItems) with _ | best
  · right; simp [solvePvp, h]
  · left; exact ⟨_, solvePvp_ok_iff.mpr ⟨best, h, rfl⟩⟩

theorem pve_success_iff {sm : String} {cands : List Candidate} {threshold : Nat}
    {maxItems : Int} (hpos : ∀ cd ∈ cands, 0 < cd.cost) :
    (∃ r, solvePve sm cands threshold maxItems = .ok r) ↔
      ∃ m ∈ FeasCostSet true cands (Kof maxItems) (tbOf threshold) (vbMaxOf threshold),
        m < INF := by
  constructor
  · rintro ⟨r, hr⟩
    obtain ⟨best, hb, _⟩ := solvePve_ok_iff.mp hr
    have hleast := pve_best_isLeast hpos hb
    have hmem := pickBest_mem hb
    obtain ⟨m0, c0, v0⟩ := best
    rw [pveOptions, mem_optionsOf] at hmem
    obtain ⟨_, _, _, _, h5, heq⟩ := hmem
    exact ⟨m0, hleast.1, by omega⟩
  · rintro ⟨m, hm, hmINF⟩
    have hopts := pve_feasible_success hpos hm hmINF
    rcases h : pickBest (pveOptions cands threshold maxItems) with _ | best
    · exact absurd (pickBest_eq_none.mp h) hopts
    · exact ⟨_, solvePve_ok_iff.mpr ⟨best, h, rfl⟩⟩

theorem pvp_success_iff {sm : String} {cands : List Candidate} {threshold : Nat}
    {maxItems : Int} (hpos : ∀ cd ∈ cands, 0 < cd.cost) :
    (∃ r, solvePvp sm cands threshold maxItems = .ok r) ↔
      ∃ m ∈ FeasCostSet false cands (Kof maxItems) (tbOf threshold) (vbMaxOf threshold),
        m < INF := by
  constructor
  · rintro ⟨r, hr⟩
    obtain ⟨best, hb, _⟩ := solvePvp_ok_iff.mp hr
    have hleast := pvp_best_isLeast hpos hb
    have hmem := pickBest_mem hb
    obtain ⟨m0, c0, v0⟩ := best
    rw [pvpOptions, mem_optionsOf] at hmem
    obtain ⟨_, _, _, _, h5, heq⟩ := hmem
    exact ⟨m0, hleast.1, by omega⟩
  · rintro ⟨m, hm, hmINF⟩
    have hopts := pvp_feasible_success hpos hm hmINF
    rcases h : pickBest (pvpOptions cands threshold maxItems) with _ | best
    · exact absurd (pickBest_eq_none.mp h) hopts
    · exact ⟨_, solvePvp_ok_iff.mpr ⟨best, h, rfl⟩⟩

theorem solvePve_cost {sm : String} {cands : List Candidate} {threshold : Nat}
    {maxItems : Int} (hpos : ∀ cd ∈ cands, 0 < cd.cost) {r : SelectionResult}
    (hr : solvePve sm cands threshold maxItems = .ok r) :
    IsLeast (FeasCostSet true cands (Kof maxItems) (tbOf threshold) (vbMaxOf threshold))
      r.total_cost := by
  obtain ⟨best, hb, rfl⟩ := solvePve_ok_iff.mp hr
  rw [aggregate_total_cost]
  exact pve_best_isLeast hpos hb

theorem solvePvp_cost {sm : String} {cands : List Candidate} {threshold : Nat}
    {maxItems : Int} (hpos : ∀ cd ∈ cands, 0 < cd.cost) {r : SelectionResult}
    (hr : solvePvp sm cands threshold maxItems = .ok r) :
    IsLeast (FeasCostSet false cands (Kof maxItems) (tbOf threshold) (vbMaxOf threshold))
      r.total_cost := by
  obtain ⟨best, hb, rfl⟩ := solvePvp_ok_iff.mp hr
  rw [aggregate_total_cost]
  exact pvp_best_isLeast hpos hb

/-! ### Claim C1 (amended) -/

/-- C1 (amended): whenever the feasible multisets — size `1..K`, regime caps
respected, CLAMPED PER-ITEM BUCKET SUM in `thresholdBucket..maxBucket` — have
a least total cost `m`, and `m` is below the `10^18` sentinel, the selector
succeeds and returns exactly `m` as `total_cost`, whatever the shuffle does.
(As literally stated the claim is false — see `C1_counterexample` — because
the code adds per-item clamped buckets, which is not the bucket of the value
sum.) -/
theorem C1_amended_min_cost (its : List RawItem) (threshold : Nat) (maxItems : Int)
    (mode : Option String) (randomize : Bool) (shuffle : List Candidate → List Candidate)
    (Hsh : ∀ l : List Candidate, (shuffle l).Perm l) (m : Int)
    (hleast : IsLeast (FeasCostSet (modeOf mode == "pve")
      (buildCandidates (modeOf mode) maxItems its) (Kof maxItems) (tbOf threshold)
      (vbMaxOf threshold)) m)
    (hm : m < INF) :
    ∃ r, compute_cultist_selection (some its) threshold maxItems mode randomize shuffle =
      .ok r ∧ r.total_cost = m := by
  have hperm : (shuffledCandidates its maxItems mode randomize shuffle).Perm
      (buildCandidates (modeOf mode) maxItems its) := by
    unfold shuffledCandidates
    split
    · exact Hsh _
    · exact List.Perm.refl _
  have hpos : ∀ cd ∈ shuffledCandidates its maxItems mode randomize shuffle, 0 < cd.cost :=
    fun cd h => (buildCandidates_pos _ _ _ cd (hperm.subset h)).2
  have hset := FeasCostSet_perm (modeOf mode == "pve") hperm (Kof maxItems)
    (tbOf threshold) (vbMaxOf threshold)
  have hne : ¬ (buildCandidates (modeOf mode) maxItems its).isEmpty = true := by
    obtain ⟨t, v, ht1, _, _, _, ks, _, htot, _, _⟩ := hleast.1
    intro he
    rw [List.isEmpty_iff] at he
    rw [he] at htot
    simp [ksTotal] at htot
    omega
  rw [compute_some_unfold, if_neg hne]
  by_cases hpve : modeOf mode = "pve"
  · rw [if_pos hpve]
    have hbeq : (modeOf mode == "pve") = true := by rw [hpve]; rfl
    rw [hbeq] at hleast hset
    have hm' : m ∈ FeasCostSet true (shuffledCandidates its maxItems mode randomize shuffle)
        (Kof maxItems) (tbOf threshold) (vbMaxOf threshold) := by
      rw [hset]
      exact hleast.1
    obtain ⟨r, hr⟩ := (pve_success_iff hpos).mpr ⟨m, hm', hm⟩
    refine ⟨r, hr, ?_⟩
    have h1 := solvePve_cost hpos hr
    rw [hset] at h1
    exact h1.unique hleast
  · rw [if_neg hpve]
    have hbeq : (modeOf mode == "pve") = false := by
      simp only [beq_eq_false_iff_ne, ne_eq]
      exact hpve
    rw [hbeq] at hleast hset
    have hm' : m ∈ FeasCostSet false (shuffledCandidates its maxItems mode randomize shuffle)
        (Kof maxItems) (tbOf threshold) (vbMaxOf threshold) := by
      rw [hset]
      exact hleast.1
    obtain ⟨r, hr⟩ := (pvp_success_iff hpos).mpr ⟨m, hm', hm⟩
    refine ⟨r, hr, ?_⟩
    have h1 := solvePvp_cost hpos hr
    rw [hset] at h1
    exact h1.unique hleast

/-- Witness for the amended C1 at the concrete X/Y catalog: the feasible
minimum under bucket-sum feasibility is 2 and the solver returns it. -/
theorem C1_amended_min_cost_witness :
    ∃ r, compute_cultist_selection (some [itemX, itemY]) 751 2 none false id =
      .ok r ∧ r.total_cost = 2 := by
  apply C1_amended_min_cost [itemX, itemY] 751 2 none false id
    (fun l => List.Perm.refl l) 2 ?_ (by decide)
  constructor
  · refine ⟨2, 2, by decide, by decide, by decide, by decide,
      (fun i => if i = 0 then 2 else 0), by decide, by decide, by decide, by decide⟩
  · rintro m ⟨t, v, ht1, ht2, hv1, hv2, ks, hcap, htot, hvb, hcost⟩
    rw [ksTotal] at htot
    rw [ksVbSum] at hvb
    rw [ksCost] at hcost
    rw [show (buildCandidates (modeOf none) 2 [itemX, itemY]).length = 2 from rfl]
      at htot hvb hcost
    rw [Finset.sum_range_succ, Finset.sum_range_succ, Finset.sum_range_zero]
      at htot
    rw [Finset.sum_range_succ, Finset.sum_range_succ, Finset.sum_range_zero,
      show vbOf (vbMaxOf 751)
        ((buildCandidates (modeOf none) 2 [itemX, itemY]).getD 0 dCand).value = 1 from rfl,
      show vbOf (vbMaxOf 751)
        ((buildCandidates (modeOf none) 2 [itemX, itemY]).getD 1 dCand).value = 2 from rfl]
      at hvb
    rw [Finset.sum_range_succ, Finset.sum_range_succ, Finset.sum_range_zero,
      show ((buildCandidates (modeOf none) 2 [itemX, itemY]).getD 0 dCand).cost = 1
        from rfl,
      show ((buildCandidates (modeOf none) 2 [itemX, itemY]).getD 1 dCand).cost = 100
        from rfl] at hcost
    rw [show tbOf 751 = 2 from rfl] at hv1
    omega

/-! ### Claim C4: the three failure conditions, exactly -/

/-- C4: the selector fails with `MissingCatalog` iff there is no item list;
with `NoValidCandidates` iff an item list exists but every entry is filtered
out by the positive value/cost checks; and with `NoFeasibleSelection` iff
valid candidates exist but no DP cell with count `1..K` and bucket
`thresholdBucket..maxBucket` is finite.  There is no silent default. -/
theorem C4_failure_taxonomy (itemsData : Option (List RawItem)) (threshold : Nat)
    (maxItems : Int) (mode : Option String) (randomize : Bool)
    (shuffle : List Candidate → List Candidate) :
    (compute_cultist_selection itemsData threshold maxItems mode randomize shuffle =
        .error .missingCatalog ↔ itemsData = none) ∧
    (compute_cultist_selection itemsData threshold maxItems mode randomize shuffle =
        .error .noValidCandidates ↔
      ∃ its, itemsData = some its ∧ buildCandidates (modeOf mode) maxItems its = []) ∧
    (compute_cultist_selection itemsData threshold maxItems mode randomize shuffle =
        .error .noFeasibleSelection ↔
      ∃ its, itemsData = some its ∧ buildCandidates (modeOf mode) maxItems its ≠ [] ∧
        ∀ c vb, 1 ≤ c → c ≤ Kof maxItems → tbOf threshold ≤ vb →
          vb ≤ vbMaxOf threshold →
          ¬ runDPCost its threshold maxItems mode randomize shuffle c vb < INF) := by
  cases itemsData with
  | none =>
    refine ⟨by simp [compute_cultist_selection], ?_, ?_⟩
    · constructor
      · intro h
        simp [compute_cultist_selection] at h
      · rintro ⟨its, h, _⟩
        simp at h
    · constructor
      · intro h
        simp [compute_cultist_selection] at h
      · rintro ⟨its, h, _⟩
        simp at h
  | some its =>
    by_cases hemp : (buildCandidates (modeOf mode) maxItems its).isEmpty = true
    · have hlhs : compute_cultist_selection (some its) threshold maxItems mode
          randomize shuffle = .error .noValidCandidates := by
        rw [compute_some_unfold, if_pos hemp]
      rw [List.isEmpty_iff] at hemp
      refine ⟨by simp [hlhs], ?_, ?_⟩
      · simp only [hlhs]
        constructor
        · intro _
          exact ⟨its, rfl, hemp⟩
        · intro _
          trivial
      · simp only [hlhs]
        constructor
        · intro h
          simp at h
        · rintro ⟨its', hits, hne, _⟩
          obtain rfl : its' = its := by injection hits with h; exact h.symm
          exact absurd hemp hne
    · rw [List.isEmpty_iff] at hemp
      have hun := compute_some_unfold its threshold maxItems mode randomize shuffle
      rw [if_neg (by rw [List.isEmpty_iff]; exact hemp)] at hun
      by_cases hpve : modeOf mode = "pve"
      · rw [if_pos hpve] at hun
        have hshape := solvePve_shape (modeOf mode)
          (shuffledCandidates its maxItems mode randomize shuffle) threshold maxItems
        refine ⟨?_, ?_, ?_⟩
        · rw [hun]
          constructor
          · intro h
            rcases hshape with ⟨r, hok⟩ | herr
            · rw [hok] at h; simp at h
            · rw [herr] at h; simp at h
          · intro h; simp at h
        · rw [hun]
          constructor
          · intro h
            rcases hshape with ⟨r, hok⟩ | herr
            · rw [hok] at h; simp at h
            · rw [herr] at h; simp at h
          · rintro ⟨its', hits, hnil⟩
            obtain rfl : its' = its := by injection hits with h; exact h.symm
            exact absurd hnil hemp
        · rw [hun, solvePve_err_iff, pveOptions, optionsOf_eq_nil_iff]
          constructor
          · intro h
            refine ⟨its, rfl, hemp, ?_⟩
            intro c vb h1 h2 h3 h4
            have := h c vb h1 h2 h3 h4
            rw [runDPCost, if_pos hpve]
            exact this
          · rintro ⟨its', hits, _, h⟩
            obtain rfl : its' = its := by injection hits with h'; exact h'.symm
            intro c vb h1 h2 h3 h4
            have := h c vb h1 h2 h3 h4
            rw [runDPCost, if_pos hpve] at this
            exact this
      · rw [if_neg hpve] at hun
        have hshape := solvePvp_shape (modeOf mode)
          (shuffledCandidates its maxItems mode randomize shuffle) threshold maxItems
        refine ⟨?_, ?_, ?_⟩
        · rw [hun]
          constructor
          · intro h
            rcases hshape with ⟨r, hok⟩ | herr
            · rw [hok] at h; simp at h
            · rw [herr] at h; simp at h
          · intro h; simp at h
        · rw [hun]
          constructor
          · intro h
            rcases hshape with ⟨r, hok⟩ | herr
            · rw [hok] at h; simp at h
            · rw [herr] at h; simp at h
          · rintro ⟨its', hits, hnil⟩
            obtain rfl : its' = its := by injection hits with h; exact h.symm
            exact absurd hnil hemp
        · rw [hun, solvePvp_err_iff, pvpOptions, optionsOf_eq_nil_iff]
          constructor
          · intro h
            refine ⟨its, rfl, hemp, ?_⟩
            intro c vb h1 h2 h3 h4
            have := h c vb h1 h2 h3 h4
            rw [runDPCost, if_neg hpve]
            exact this
          · rintro ⟨its', hits, _, h⟩
            obtain rfl : its' = its := by injection hits with h'; exact h'.symm
            intro c vb h1 h2 h3 h4
            have := h c vb h1 h2 h3 h4
            rw [runDPCost, if_neg hpve] at this
            exact this

/-! ### Claim C7: candidate order does not affect the optimal cost -/

/-- C7: the shuffle applied when `randomize` is set never changes the outcome:
a run with any permutation-producing shuffle returns the same failure, or a
result with the same `total_cost`, as the unshuffled run; only which
cost-equal selection is reported may differ. -/
theorem C7_shuffle_cost_invariant (itemsData : Option (List RawItem)) (threshold : Nat)
    (maxItems : Int) (mode : Option String) (shuffle : List Candidate → List Candidate)
    (Hsh : ∀ l : List Candidate, (shuffle l).Perm l) :
    (compute_cultist_selection itemsData threshold maxItems mode true shuffle).map
        (fun r => r.total_cost) =
      (compute_cultist_selection itemsData threshold maxItems mode false shuffle).map
        (fun r => r.total_cost) := by
  cases itemsData with
  | none => rfl
  | some its =>
    rw [compute_some_unfold its threshold maxItems mode true shuffle,
      compute_some_unfold its threshold maxItems mode false shuffle]
    by_cases hemp : (buildCandidates (modeOf mode) maxItems its).isEmpty = true
    · rw [if_pos hemp, if_pos hemp]
    · rw [if_neg hemp, if_neg hemp]
      have hperm : (shuffledCandidates its maxItems mode true shuffle).Perm
          (shuffledCandidates its maxItems mode false shuffle) := by
        unfold shuffledCandidates
        simpa using Hsh _
      have hpos₁ : ∀ cd ∈ shuffledCandidates its maxItems mode true shuffle,
          0 < cd.cost := by
        intro cd h
        exact (buildCandidates_pos _ _ _ cd (by
          have := hperm.subset h
          simpa [shuffledCandidates] using this)).2
      have hpos₀ : ∀ cd ∈ shuffledCandidates its maxItems mode false shuffle,
          0 < cd.cost := by
        intro cd h
        exact (buildCandidates_pos _ _ _ cd (by
          simpa [shuffledCandidates] using h)).2
      by_cases hpve : modeOf mode = "pve"
      · rw [if_pos hpve, if_pos hpve]
        have hset := FeasCostSet_perm true hperm (Kof maxItems) (tbOf threshold)
          (vbMaxOf threshold)
        by_cases hfeas : ∃ m ∈ FeasCostSet true
            (shuffledCandidates its maxItems mode false shuffle) (Kof maxItems)
            (tbOf threshold) (vbMaxOf threshold), m < INF
        · obtain ⟨m, hm, hmINF⟩ := hfeas
          obtain ⟨r₁, hr₁⟩ := (pve_success_iff hpos₁).mpr ⟨m, by rw [hset]; exact hm, hmINF⟩
          obtain ⟨r₀, hr₀⟩ := (pve_success_iff hpos₀).mpr ⟨m, hm, hmINF⟩
          rw [hr₁, hr₀]
          have h₁ := solvePve_cost hpos₁ hr₁
          rw [hset] at h₁
          have h₀ := solvePve_cost hpos₀ hr₀
          have heq : r₁.total_cost = r₀.total_cost := h₁.unique h₀
          show Except.ok r₁.total_cost = Except.ok r₀.total_cost
          rw [heq]
        · have h₁ : ¬ ∃ r, solvePve (modeOf mode)
              (shuffledCandidates its maxItems mode true shuffle) threshold maxItems =
                .ok r := by
            rw [pve_success_iff hpos₁, hset]
            exact hfeas
          have h₀ : ¬ ∃ r, solvePve (modeOf mode)
              (shuffledCandidates its maxItems mode false shuffle) threshold maxItems =
                .ok r := by
            rw [pve_success_iff hpos₀]
            exact hfeas
          rcases solvePve_shape (modeOf mode)
            (shuffledCandidates its maxItems mode true shuffle) threshold maxItems with
            hok | herr₁
          · exact absurd hok h₁
          · rcases solvePve_shape (modeOf mode)
              (shuffledCandidates its maxItems mode false shuffle) threshold maxItems with
              hok | herr₀
            · exact absurd hok h₀
            · rw [herr₁, herr₀]
      · rw [if_neg hpve, if_neg hpve]
        have hset := FeasCostSet_perm false hperm (Kof maxItems) (tbOf threshold)
          (vbMaxOf threshold)
        by_cases hfeas : ∃ m ∈ FeasCostSet false
            (shuffledCandidates its maxItems mode false shuffle) (Kof maxItems)
            (tbOf threshold) (vbMaxOf threshold), m < INF
        · obtain ⟨m, hm, hmINF⟩ := hfeas
          obtain ⟨r₁, hr₁⟩ := (pvp_success_iff hpos₁).mpr ⟨m, by rw [hset]; exact hm, hmINF⟩
          obtain ⟨r₀, hr₀⟩ := (pvp_success_iff hpos₀).mpr ⟨m, hm, hmINF⟩
          rw [hr₁, hr₀]
          have h₁ := solvePvp_cost hpos₁ hr₁
          rw [hset] at h₁
          have h₀ := solvePvp_cost hpos₀ hr₀
          have heq : r₁.total_cost = r₀.total_cost := h₁.unique h₀
          show Except.ok r₁.total_cost = Except.ok r₀.total_cost
          rw [heq]
        · have h₁ : ¬ ∃ r, solvePvp (modeOf mode)
              (shuffledCandidates its maxItems mode true shuffle) threshold maxItems =
                .ok r := by
            rw [pvp_success_iff hpos₁, hset]
            exact hfeas
          have h₀ : ¬ ∃ r, solvePvp (modeOf mode)
              (shuffledCandidates its maxItems mode false shuffle) threshold maxItems =
                .ok r := by
            rw [pvp_success_iff hpos₀]
            exact hfeas
          rcases solvePvp_shape (modeOf mode)
            (shuffledCandidates its maxItems mode true shuffle) threshold maxItems with
            hok | herr₁
          · exact absurd hok h₁
          · rcases solvePvp_shape (modeOf mode)
              (shuffledCandidates its maxItems mode false shuffle) threshold maxItems with
              hok | herr₀
            · exact absurd hok h₀
            · rw [herr₁, herr₀]

/-- Witness for C7 at a concrete input with a reversing shuffle. -/
theorem C7_shuffle_cost_invariant_witness :
    (compute_cultist_selection (some [itemX, itemY]) 751 2 none true List.reverse).map
        (fun r => r.total_cost) =
      (compute_cultist_selection (some [itemX, itemY]) 751 2 none false List.reverse).map
        (fun r => r.total_cost) :=
  C7_shuffle_cost_invariant (some [itemX, itemY]) 751 2 none List.reverse
    (fun l => List.reverse_perm l)

/-- Length of the aggregate's display lines. -/
theorem aggregate_lines_length (sm : String) (cands : List Candidate) (bestCost : Int)
    (w : List Nat) :
    (aggregate sm cands bestCost w).sel_lines.length = (countsOf w).length := by
  show ((sortBy (dispLe cands) (countsOf w)).map (lineFor sm cands)).length = _
  rw [List.length_map, (sortBy_perm (dispLe cands) (countsOf w)).length_eq]

/-- PvE: a successful solve's total value is bounded below through the chosen
cell's bucket window. -/
theorem solvePve_value_lower {sm : String} {cands : List Candidate} {threshold : Nat}
    {maxItems : Int} {r : SelectionResult}
    (hvalpos : ∀ cd ∈ cands, 0 < cd.value)
    (hr : solvePve sm cands threshold maxItems = .ok r) :
    ∃ cnt vb, 1 ≤ cnt ∧ cnt ≤ Kof maxItems ∧ tbOf threshold ≤ vb ∧
      vb ≤ vbMaxOf threshold ∧
      (STEP : Int) * vb - ((STEP : Int) - 1) * cnt ≤ r.total_value := by
  obtain ⟨best, hb, rfl⟩ := solvePve_ok_iff.mp hr
  have hmem := pickBest_mem hb
  obtain ⟨m0, c0, v0⟩ := best
  rw [pveOptions, mem_optionsOf] at hmem
  obtain ⟨h1, h2, h3, h4, h5, _⟩ := hmem
  obtain ⟨hlen, hmemw, hvbw, _⟩ := pveWalk_spec (vbMaxOf threshold) cands c0 v0 h5
  rw [aggregate_total_value]
  refine ⟨c0, v0, h1, h2, h3, h4, ?_⟩
  have := walk_value_lower (vbMaxOf threshold) cands hvalpos
    (walkTab (pveDP (vbMaxOf threshold) cands) c0 v0) hmemw
  rw [hvbw, hlen] at this
  exact this

/-- PvP: a successful solve's total value is bounded below through the chosen
cell's bucket window (this survives the stale-pointer bug because the walk's
bucket bookkeeping is exact even when its cost bookkeeping is not). -/
theorem solvePvp_value_lower {sm : String} {cands : List Candidate} {threshold : Nat}
    {maxItems : Int} {r : SelectionResult}
    (hpos : ∀ cd ∈ cands, 0 < cd.cost)
    (hvalpos : ∀ cd ∈ cands, 0 < cd.value)
    (hr : solvePvp sm cands threshold maxItems = .ok r) :
    ∃ cnt vb, 1 ≤ cnt ∧ cnt ≤ Kof maxItems ∧ tbOf threshold ≤ vb ∧
      vb ≤ vbMaxOf threshold ∧
      (STEP : Int) * vb - ((STEP : Int) - 1) * cnt ≤ r.total_value := by
  obtain ⟨best, hb, rfl⟩ := solvePvp_ok_iff.mp hr
  have hupos : ∀ v ∈ mkUnits (Kof maxItems) (vbMaxOf threshold) cands, 0 < v.cost :=
    mkUnitsFrom_cost_pos (Kof maxItems) (vbMaxOf threshold) cands 0 hpos
  obtain ⟨_, hptr⟩ := pvpDP_inv (Kof maxItems) (vbMaxOf threshold)
    (mkUnits (Kof maxItems) (vbMaxOf threshold) cands) hupos
  have hmem := pickBest_mem hb
  obtain ⟨m0, c0, v0⟩ := best
  rw [pvpOptions, mem_optionsOf] at hmem
  obtain ⟨h1, h2, h3, h4, h5, _⟩ := hmem
  obtain ⟨hlen, hmemw, hvbw⟩ := pvpWalk_spec (Kof maxItems) (vbMaxOf threshold)
    (mkUnits (Kof maxItems) (vbMaxOf threshold) cands) hptr c0 v0 h2 h4 h5
  rw [aggregate_total_value]
  refine ⟨c0, v0, h1, h2, h3, h4, ?_⟩
  set w := walkTab (pvpDP (Kof maxItems) (vbMaxOf threshold)
    (mkUnits (Kof maxItems) (vbMaxOf threshold) cands)) c0 v0 with hw
  set w' := w.map (fun j =>
    ((mkUnits (Kof maxItems) (vbMaxOf threshold) cands).getD j dUnit).idx) with hw'
  have hmem' : ∀ i ∈ w', i < cands.length := by
    intro i hi
    rw [hw', List.mem_map] at hi
    obtain ⟨j, hj, rfl⟩ := hi
    exact (mkUnits_getD_wf (hmemw j hj)).1
  have hvb' : (w'.map (fun i => vbOf (vbMaxOf threshold)
      (cands.getD i dCand).value)).sum = v0 := by
    rw [hw', List.map_map]
    rw [← hvbw]
    congr 1
    apply List.map_congr_left
    intro j hj
    exact ((mkUnits_getD_wf (hmemw j hj)).2.1).symm
  have hlen' : w'.length = c0 := by rw [hw', List.length_map, hlen]
  have := walk_value_lower (vbMaxOf threshold) cands hvalpos w' hmem'
  rw [hvb', hlen'] at this
  exact this

theorem threshold_le_step_tb (threshold : Nat) : threshold ≤ STEP * tbOf threshold := by
  unfold tbOf STEP
  omega

/-! ### Claim C2 (amended) -/

/-- C2 (amended): on every successful solve, the chosen cell's bucket lies in
`thresholdBucket..maxBucket` and the returned total value satisfies the
quantized bound `STEP·bucket − (STEP−1)·count ≤ totalValue`, whence
`totalValue ≥ thresholdValue − (STEP−1)·K`.  The claim's literal bounds
`thresholdValue ≤ totalValue ≤ thresholdValue + maxOvershoot` are both false
on the code (see `C2_counterexample` for the lower one; clamped buckets of
arbitrarily valuable items break the upper one). -/
theorem C2_amended_value_window (its : List RawItem) (threshold : Nat) (maxItems : Int)
    (mode : Option String) (randomize : Bool) (shuffle : List Candidate → List Candidate)
    (Hsh : ∀ l : List Candidate, (shuffle l).Perm l) (r : SelectionResult)
    (hok : compute_cultist_selection (some its) threshold maxItems mode randomize shuffle =
      .ok r) :
    ∃ cnt vb, 1 ≤ cnt ∧ cnt ≤ Kof maxItems ∧ tbOf threshold ≤ vb ∧
      vb ≤ vbMaxOf threshold ∧
      (STEP : Int) * vb - ((STEP : Int) - 1) * cnt ≤ r.total_value ∧
      (threshold : Int) - ((STEP : Int) - 1) * (Kof maxItems) ≤ r.total_value := by
  rw [compute_some_unfold] at hok
  by_cases hemp : (buildCandidates (modeOf mode) maxItems its).isEmpty = true
  · rw [if_pos hemp] at hok
    simp at hok
  · rw [if_neg hemp] at hok
    have hperm : (shuffledCandidates its maxItems mode randomize shuffle).Perm
        (buildCandidates (modeOf mode) maxItems its) := by
      unfold shuffledCandidates
      split
      · exact Hsh _
      · exact List.Perm.refl _
    have hvalpos : ∀ cd ∈ shuffledCandidates its maxItems mode randomize shuffle,
        0 < cd.value :=
      fun cd h => (buildCandidates_pos _ _ _ cd (hperm.subset h)).1
    have hpos : ∀ cd ∈ shuffledCandidates its maxItems mode randomize shuffle,
        0 < cd.cost :=
      fun cd h => (buildCandidates_pos _ _ _ cd (hperm.subset h)).2
    have hstep : threshold ≤ STEP * tbOf threshold := threshold_le_step_tb threshold
    by_cases hpve : modeOf mode = "pve"
    · rw [if_pos hpve] at hok
      obtain ⟨cnt, vb, h1, h2, h3, h4, h5⟩ := solvePve_value_lower hvalpos hok
      refine ⟨cnt, vb, h1, h2, h3, h4, h5, ?_⟩
      have : (STEP : Int) * tbOf threshold ≤ (STEP : Int) * vb := by
        have : (STEP : Nat) * tbOf threshold ≤ STEP * vb := Nat.mul_le_mul_left _ h3
        exact_mod_cast this
      have hcnt : ((STEP : Int) - 1) * cnt ≤ ((STEP : Int) - 1) * (Kof maxItems) := by
        have h500 : (0 : Int) ≤ (STEP : Int) - 1 := by unfold STEP; omega
        exact mul_le_mul_of_nonneg_left (by exact_mod_cast h2) h500
      have hth : (threshold : Int) ≤ (STEP : Int) * tbOf threshold := by
        exact_mod_cast hstep
      omega
    · rw [if_neg hpve] at hok
      obtain ⟨cnt, vb, h1, h2, h3, h4, h5⟩ := solvePvp_value_lower hpos hvalpos hok
      refine ⟨cnt, vb, h1, h2, h3, h4, h5, ?_⟩
      have : (STEP : Int) * tbOf threshold ≤ (STEP : Int) * vb := by
        have : (STEP : Nat) * tbOf threshold ≤ STEP * vb := Nat.mul_le_mul_left _ h3
        exact_mod_cast this
      have hcnt : ((STEP : Int) - 1) * cnt ≤ ((STEP : Int) - 1) * (Kof maxItems) := by
        have h500 : (0 : Int) ≤ (STEP : Int) - 1 := by unfold STEP; omega
        exact mul_le_mul_of_nonneg_left (by exact_mod_cast h2) h500
      have hth : (threshold : Int) ≤ (STEP : Int) * tbOf threshold := by
        exact_mod_cast hstep
      omega

/-- Witness for the amended C2 at the C2 counterexample input. -/
theorem C2_amended_value_window_witness :
    ∃ cnt vb, 1 ≤ cnt ∧ cnt ≤ Kof 2 ∧ tbOf 751 ≤ vb ∧ vb ≤ vbMaxOf 751 ∧
      (STEP : Int) * vb - ((STEP : Int) - 1) * cnt ≤ (600 : Int) ∧
      ((751 : Nat) : Int) - ((STEP : Int) - 1) * (Kof 2) ≤ (600 : Int) := by
  have h := C2_amended_value_window [itemD] 751 2 (some "pve") false id
    (fun l => List.Perm.refl l)
    { total_value := 600, total_cost := 2,
      sel_lines := ["x2 — D | value 300₽ | cost 1₽"] } (by rfl)
  exact h

/-! ### Claim C9: threshold 0 and the cheapest single candidate -/

theorem sum_single_mulN {n k : Nat} (hk : k < n) (w : Nat → Nat) :
    ∑ i in Finset.range n, (if i = k then 1 else 0) * w i = w k := by
  have h : ∀ i ∈ Finset.range n, (if i = k then 1 else 0) * w i =
      if i = k then w k else 0 := by
    intro i _
    by_cases hi : i = k
    · subst hi; simp
    · simp [hi]
  rw [Finset.sum_congr rfl h, Finset.sum_ite_eq' (Finset.range n) k (fun _ => w k)]
  simp [hk]

theorem sum_single_mulI {n k : Nat} (hk : k < n) (c : Nat → Int) :
    ∑ i in Finset.range n, (((if i = k then 1 else 0 : Nat) : Nat) : Int) * c i = c k := by
  have h : ∀ i ∈ Finset.range n, (((if i = k then 1 else 0 : Nat) : Nat) : Int) * c i =
      if i = k then c k else 0 := by
    intro i _
    by_cases hi : i = k
    · subst hi; simp
    · simp [hi]
  rw [Finset.sum_congr rfl h, Finset.sum_ite_eq' (Finset.range n) k (fun _ => c k)]
  simp [hk]

/-- A count vector's cost is at least its size times any uniform cost lower
bound. -/
theorem ksCost_lower {cands : List Candidate} {cm : Int}
    (hge : ∀ cd ∈ cands, cm ≤ cd.cost) (ks : Nat → Nat) :
    ((ksTotal cands.length ks : Nat) : Int) * cm ≤ ksCost cands ks := by
  unfold ksTotal ksCost
  rw [Nat.cast_sum, Finset.sum_mul]
  apply Finset.sum_le_sum
  intro i hi
  have hmem : cands.getD i dCand ∈ cands := by
    rw [List.getD_eq_getElem cands dCand (Finset.mem_range.mp hi)]
    exact List.getElem_mem (Finset.mem_range.mp hi)
  exact mul_le_mul_of_nonneg_left (hge _ hmem) (by positivity)

/-- `countsOf` of a single-element walk. -/
theorem countsOf_single (j : Nat) : countsOf [j] = [(j, 1)] := rfl

/-- Prerequisites shared by the two cheapest-single lemmas. -/
theorem cheapest_isLeast {isPve : Bool} {cands : List Candidate} {maxItems : Int}
    {cm : Int} (hpos : ∀ cd ∈ cands, 0 < cd.cost)
    (hge : ∀ cd ∈ cands, cm ≤ cd.cost)
    (hmem : ∃ cd ∈ cands, cd.cost = cm) :
    IsLeast (FeasCostSet isPve cands (Kof maxItems) (tbOf 0) (vbMaxOf 0)) cm := by
  obtain ⟨cd, hcd, hcost⟩ := hmem
  have hcm : 0 < cm := hcost ▸ hpos cd hcd
  obtain ⟨k, hk, hgetD⟩ : ∃ k, ∃ h : k < cands.length, cands[k] = cd := by
    obtain ⟨k, hk, he⟩ := List.getElem_of_mem hcd
    exact ⟨k, hk, he⟩
  have hgetD' : cands.getD k dCand = cd := by
    rw [List.getD_eq_getElem cands dCand hk, hgetD]
  constructor
  · refine ⟨1, vbOf (vbMaxOf 0) cd.value, le_refl 1, Kof_pos maxItems,
      by unfold tbOf STEP; omega, Nat.min_le_right _ _,
      (fun i => if i = k then 1 else 0), ?_, ?_, ?_, ?_⟩
    · intro i hi
      show (if i = k then 1 else 0) ≤ regimeCap isPve (Kof maxItems) (cands.getD i dCand)
      by_cases hik : i = k
      · rw [if_pos hik]
        unfold regimeCap
        split
        · exact Kof_pos maxItems
        · exact capClamp_pos _ _
      · rw [if_neg hik]
        exact Nat.zero_le _
    · unfold ksTotal
      rw [show (fun i => if i = k then 1 else 0) = fun i => (if i = k then 1 else 0) * 1
          from by funext i; by_cases hi : i = k <;> simp [hi]]
      exact sum_single_mulN hk (fun _ => 1)
    · unfold ksVbSum
      rw [show (∑ i in Finset.range cands.length,
          (if i = k then 1 else 0) * vbOf (vbMaxOf 0) (cands.getD i dCand).value) =
          vbOf (vbMaxOf 0) (cands.getD k dCand).value from
          sum_single_mulN hk (fun i => vbOf (vbMaxOf 0) (cands.getD i dCand).value)]
      rw [hgetD']
    · unfold ksCost
      rw [show (∑ i in Finset.range cands.length,
          (((if i = k then 1 else 0 : Nat) : Nat) : Int) * (cands.getD i dCand).cost) =
          (cands.getD k dCand).cost from
          sum_single_mulI hk (fun i => (cands.getD i dCand).cost)]
      rw [hgetD', hcost]
  · rintro m ⟨t, v, ht1, _, _, _, ks, _, htot, _, hkc⟩
    have hlow := ksCost_lower hge ks
    rw [htot, hkc] at hlow
    have : cm ≤ (t : Int) * cm := le_mul_of_one_le_left (le_of_lt hcm) (by exact_mod_cast ht1)
    exact le_trans this hlow

/-- PvE regime at threshold 0: the solve picks exactly one item, of minimal
cost. -/
theorem solvePve_cheapest {sm : String} {cands : List Candidate} {maxItems : Int}
    {cm : Int} (hpos : ∀ cd ∈ cands, 0 < cd.cost)
    (hge : ∀ cd ∈ cands, cm ≤ cd.cost)
    (hmem : ∃ cd ∈ cands, cd.cost = cm) (hINF : cm < INF) :
    ∃ r, solvePve sm cands 0 maxItems = .ok r ∧ r.total_cost = cm ∧
      r.sel_lines.length = 1 ∧
      ∃ cd ∈ cands, cd.cost = cm ∧ r.total_value = cd.value := by
  have hcm : 0 < cm := by
    obtain ⟨cd, hcd, hcost⟩ := hmem
    exact hcost ▸ hpos cd hcd
  have hleast := @cheapest_isLeast true cands maxItems cm hpos hge hmem
  obtain ⟨r, hr⟩ := (@pve_success_iff sm cands 0 maxItems hpos).mpr ⟨cm, hleast.1, hINF⟩
  obtain ⟨best, hb, hragg⟩ := solvePve_ok_iff.mp hr
  have hbcost : best.1 = cm := (pve_best_isLeast hpos hb).unique hleast
  have hmemb := pickBest_mem hb
  obtain ⟨m0, c0, v0⟩ := best
  rw [pveOptions, mem_optionsOf] at hmemb
  obtain ⟨h1, h2, h3, h4, h5, rfl⟩ := hmemb
  have hm0 : (pveDP (vbMaxOf 0) cands c0 v0).1 = cm := hbcost
  obtain ⟨ks, ht, hv, hc⟩ := pveDP_sound (vbMaxOf 0) cands c0 v0 h5
  have hlow := ksCost_lower hge ks
  rw [ht, hc, hm0] at hlow
  have hc0le : (c0 : Int) ≤ 1 := by
    have h' : (c0 : Int) * cm ≤ 1 * cm := by rw [one_mul]; exact hlow
    exact le_of_mul_le_mul_right h' hcm
  have hc01 : c0 = 1 := by omega
  subst hc01
  obtain ⟨hlen, hmemw, hvbw, hcostw⟩ := pveWalk_spec (vbMaxOf 0) cands 1 v0 h5
  obtain ⟨j, hj⟩ := List.length_eq_one.mp hlen
  have hragg' : r = aggregate sm cands (pveDP (vbMaxOf 0) cands 1 v0).1
      (walkTab (pveDP (vbMaxOf 0) cands) 1 v0) := hragg
  have hjlt : j < cands.length := hmemw j (by rw [hj]; simp)
  have hjcost : (cands.getD j dCand).cost = cm := by
    rw [hj] at hcostw
    have h' : (cands.getD j dCand).cost = (pveDP (vbMaxOf 0) cands 1 v0).1 := by
      simpa using hcostw
    rw [h', hm0]
  refine ⟨r, hr, ?_, ?_, ?_⟩
  · rw [hragg', aggregate_total_cost, hm0]
  · rw [hragg', aggregate_lines_length, hj]
    rfl
  · refine ⟨cands.getD j dCand, ?_, hjcost, ?_⟩
    · rw [List.getD_eq_getElem cands dCand hjlt]
      exact List.getElem_mem hjlt
    · rw [hragg', aggregate_total_value, hj]
      simp

/-- PvP regime at threshold 0: the solve picks exactly one item, of minimal
cost (count 1 keeps the back-pointer honest: row 0 never changes). -/
theorem solvePvp_cheapest {sm : String} {cands : List Candidate} {maxItems : Int}
    {cm : Int} (hpos : ∀ cd ∈ cands, 0 < cd.cost)
    (hge : ∀ cd ∈ cands, cm ≤ cd.cost)
    (hmem : ∃ cd ∈ cands, cd.cost = cm) (hINF : cm < INF) :
    ∃ r, solvePvp sm cands 0 maxItems = .ok r ∧ r.total_cost = cm ∧
      r.sel_lines.length = 1 ∧
      ∃ cd ∈ cands, cd.cost = cm ∧ r.total_value = cd.value := by
  have hcm : 0 < cm := by
    obtain ⟨cd, hcd, hcost⟩ := hmem
    exact hcost ▸ hpos cd hcd
  have hleast := @cheapest_isLeast false cands maxItems cm hpos hge hmem
  obtain ⟨r, hr⟩ := (@pvp_success_iff sm cands 0 maxItems hpos).mpr ⟨cm, hleast.1, hINF⟩
  obtain ⟨best, hb, hragg⟩ := solvePvp_ok_iff.mp hr
  have hbcost : best.1 = cm := (pvp_best_isLeast hpos hb).unique hleast
  have hupos : ∀ v ∈ mkUnits (Kof maxItems) (vbMaxOf 0) cands, 0 < v.cost :=
    mkUnitsFrom_cost_pos (Kof maxItems) (vbMaxOf 0) cands 0 hpos
  obtain ⟨hval, hptr⟩ := pvpDP_inv (Kof maxItems) (vbMaxOf 0)
    (mkUnits (Kof maxItems) (vbMaxOf 0) cands) hupos
  have hmemb := pickBest_mem hb
  obtain ⟨m0, c0, v0⟩ := best
  rw [pvpOptions, mem_optionsOf] at hmemb
  obtain ⟨h1, h2, h3, h4, h5, rfl⟩ := hmemb
  have hm0 : (pvpDP (Kof maxItems) (vbMaxOf 0)
      (mkUnits (Kof maxItems) (vbMaxOf 0) cands) c0 v0).1 = cm := hbcost
  obtain ⟨S, hS, hSlen, hSvb, hScost⟩ := (hval c0 v0 h2 h4).1 h5
  obtain ⟨ks, hcap, ht, hv, hc⟩ := sublist_mkUnits_to_ks hS
  have hlow := ksCost_lower hge ks
  rw [ht, hSlen, hc, hScost, hm0] at hlow
  have hc0le : (c0 : Int) ≤ 1 := by
    have h' : (c0 : Int) * cm ≤ 1 * cm := by rw [one_mul]; exact hlow
    exact le_of_mul_le_mul_right h' hcm
  have hc01 : c0 = 1 := by omega
  subst hc01
  have hwin := hptr.2.2 1 v0 (le_refl 1) h2 h4
  match hy : (pvpDP (Kof maxItems) (vbMaxOf 0)
      (mkUnits (Kof maxItems) (vbMaxOf 0) cands) 1 v0).2 with
  | none => exact absurd (hwin.1 hy) (by omega)
  | some (pv, j) =>
    obtain ⟨f1, f2, f3, f4, f5, f6⟩ := hwin.2 pv j hy
    have hucost := f6 rfl
    rw [hm0] at hucost
    have hw : walkTab (pvpDP (Kof maxItems) (vbMaxOf 0)
        (mkUnits (Kof maxItems) (vbMaxOf 0) cands)) 1 v0 = [j] := by
      show (match (pvpDP (Kof maxItems) (vbMaxOf 0)
          (mkUnits (Kof maxItems) (vbMaxOf 0) cands) 1 v0).2 with
        | none => []
        | some (pv, j) => j :: walkTab (pvpDP (Kof maxItems) (vbMaxOf 0)
            (mkUnits (Kof maxItems) (vbMaxOf 0) cands)) 0 pv) = [j]
      rw [hy]
      rfl
    obtain ⟨hidx, _, hcosteq⟩ := @mkUnits_getD_wf (Kof maxItems) (vbMaxOf 0) cands j f1
    have hjcost : (cands.getD ((mkUnits (Kof maxItems) (vbMaxOf 0) cands).getD j
        dUnit).idx dCand).cost = cm := by
      rw [← hcosteq, hucost]
    have hragg' : r = aggregate sm cands (pvpDP (Kof maxItems) (vbMaxOf 0)
        (mkUnits (Kof maxItems) (vbMaxOf 0) cands) 1 v0).1
        ((walkTab (pvpDP (Kof maxItems) (vbMaxOf 0)
            (mkUnits (Kof maxItems) (vbMaxOf 0) cands)) 1 v0).map
          fun j => ((mkUnits (Kof maxItems) (vbMaxOf 0) cands).getD j dUnit).idx) := hragg
    rw [hw] at hragg'
    refine ⟨r, hr, ?_, ?_, ?_⟩
    · rw [hragg', aggregate_total_cost, hm0]
    · rw [hragg', aggregate_lines_length]
      rfl
    · refine ⟨cands.getD ((mkUnits (Kof maxItems) (vbMaxOf 0) cands).getD j dUnit).idx
        dCand, ?_, hjcost, ?_⟩
      · rw [List.getD_eq_getElem cands dCand hidx]
        exact List.getElem_mem hidx
      · rw [hragg', aggregate_total_value]
        simp

/-- C9 (amended): with threshold 0 and a non-empty valid candidate set whose
cheapest cost `cm` lies below the `10^18` sentinel, the selector succeeds
with exactly one output line, `total_cost` equal to `cm`, and the value of
some candidate of cost `cm`, whatever the shuffle does.  (As literally
stated the claim is false — see `C9_counterexample` — because a cheapest
cost at or above the sentinel raises `NoFeasibleSelection` instead.) -/
theorem C9_threshold_zero_cheapest (its : List RawItem) (maxItems : Int)
    (mode : Option String) (randomize : Bool)
    (shuffle : List Candidate → List Candidate)
    (Hsh : ∀ l : List Candidate, (shuffle l).Perm l) (cm : Int)
    (hmem : ∃ cd ∈ buildCandidates (modeOf mode) maxItems its, cd.cost = cm)
    (hge : ∀ cd ∈ buildCandidates (modeOf mode) maxItems its, cm ≤ cd.cost)
    (hINF : cm < INF) :
    ∃ r, compute_cultist_selection (some its) 0 maxItems mode randomize shuffle =
        .ok r ∧
      r.total_cost = cm ∧ r.sel_lines.length = 1 ∧
      ∃ cd ∈ buildCandidates (modeOf mode) maxItems its,
        cd.cost = cm ∧ r.total_value = cd.value := by
  have hperm : (shuffledCandidates its maxItems mode randomize shuffle).Perm
      (buildCandidates (modeOf mode) maxItems its) := by
    unfold shuffledCandidates
    split
    · exact Hsh _
    · exact List.Perm.refl _
  have hpos : ∀ cd ∈ shuffledCandidates its maxItems mode randomize shuffle,
      0 < cd.cost :=
    fun cd h => (buildCandidates_pos _ _ _ cd (hperm.subset h)).2
  have hge' : ∀ cd ∈ shuffledCandidates its maxItems mode randomize shuffle,
      cm ≤ cd.cost :=
    fun cd h => hge cd (hperm.subset h)
  have hmem' : ∃ cd ∈ shuffledCandidates its maxItems mode randomize shuffle,
      cd.cost = cm := by
    obtain ⟨cd, hcd, hcost⟩ := hmem
    exact ⟨cd, hperm.mem_iff.mpr hcd, hcost⟩
  have hne : ¬ (buildCandidates (modeOf mode) maxItems its).isEmpty = true := by
    obtain ⟨cd, hcd, _⟩ := hmem
    intro he
    rw [List.isEmpty_iff] at he
    rw [he] at hcd
    simp at hcd
  rw [compute_some_unfold, if_neg hne]
  by_cases hpve : modeOf mode = "pve"
  · rw [if_pos hpve]
    obtain ⟨r, hr, hcost, hlen, cd, hcd, hcdc, hval⟩ :=
      @solvePve_cheapest (modeOf mode)
        (shuffledCandidates its maxItems mode randomize shuffle) maxItems cm
        hpos hge' hmem' hINF
    exact ⟨r, hr, hcost, hlen, cd, hperm.subset hcd, hcdc, hval⟩
  · rw [if_neg hpve]
    obtain ⟨r, hr, hcost, hlen, cd, hcd, hcdc, hval⟩ :=
      @solvePvp_cheapest (modeOf mode)
        (shuffledCandidates its maxItems mode randomize shuffle) maxItems cm
        hpos hge' hmem' hINF
    exact ⟨r, hr, hcost, hlen, cd, hperm.subset hcd, hcdc, hval⟩

/-- Witness for the amended C9 at the concrete X/Y catalog under threshold 0:
the cheapest candidate costs 1 and the selector returns one line of cost 1. -/
theorem C9_threshold_zero_cheapest_witness :
    ∃ r, compute_cultist_selection (some [itemX, itemY]) 0 2 none false id = .ok r ∧
      r.total_cost = 1 ∧ r.sel_lines.length = 1 ∧
      ∃ cd ∈ buildCandidates (modeOf none) 2 [itemX, itemY],
        cd.cost = 1 ∧ r.total_value = cd.value :=
  C9_threshold_zero_cheapest [itemX, itemY] 2 none false id
    (fun l => List.Perm.refl l) 1 (by decide) (by decide) (by decide)

end Cultist
